import Mathlib

/-!
Verification of the go-di dependency-injection library (ivankorobkov/go-di).

This file gives a shallow embedding of the library's core algorithms and
proves properties about them:

* `di.go`: `Context.initModule` / `initModules` (module resolution with
  cyclic-import detection), `Context.initProviders` (provider flattening
  with duplicate detection; the dependency check there is commented out in
  the source), `Context.initInstance` / `initInstances` (memoized,
  dependency-first instantiation), `Context.Inject` (struct-field fill).
* `module.go`: `Module.add` duplicate check at module-definition time.
* `provider.go`: the wrapper built by `newProvider` around a factory with a
  `(value, error)` return signature.
* `package.go`: `Package.initConstructors` (the older generation that still
  performs the unresolved-dependency checks).
* `app.go`: both generations of the lifecycle orchestrator (`App.Start`,
  `App.Stop`, `withTimeout`).

Modeling conventions: `reflect.Type` is modeled as a numeric type tag
(`Nat`); instance values are a type parameter `V`; Go maps keyed by type
are modeled as association lists in insertion order; Go's unbounded
recursion is modeled with an explicit fuel argument (fuel exhaustion is a
distinguished error, so any successful run of the model corresponds to a
terminating run of the Go code and vice versa).
-/

namespace Di

/-- Errors produced by the library, in structured form. The Go code renders
them through `fmt.Errorf` (or `panic`); `DiError.render` below reproduces
the wording of the current generation (di.go / module.go). -/
inductive DiError where
  | outOfFuel
  | cyclicImport (path : List String)
  | duplicateProvider (typ : Nat) (module0 module1 : String)
  | duplicateProviderInModule (typ : Nat) (module0 : String)
  | noProvider (typ : Nat)
  | providerFailure (msg : String)
  | unresolvedPackageDep (dep : Nat) (module0 : String)
  | unresolvedDep (dep : Nat) (ctor : String) (module0 : String)
  deriving Repr, DecidableEq

/-- The Go error message for each structured error (di.go uses fmt.Errorf). -/
def DiError.render : DiError → String
  | .outOfFuel => "model: out of fuel"
  | .cyclicImport path => "di: cyclic import " ++ String.intercalate " -> " path
  | .duplicateProvider t m0 m1 =>
      "di: duplicate provider, type=" ++ toString t ++ ", module0=" ++ m0 ++ ", module1=" ++ m1
  | .duplicateProviderInModule t m0 =>
      "di: duplicate provider, type=" ++ toString t ++ " module=" ++ m0
  | .noProvider t => "di: no provider, type=" ++ toString t
  | .providerFailure msg => msg
  | .unresolvedPackageDep d m0 =>
      "di: Unresolved package-level dependency: dep=" ++ toString d ++ " module=" ++ m0
  | .unresolvedDep d c m0 =>
      "di: Unresolved dependency: dep=" ++ toString d ++ " constructor=" ++ c ++ " module=" ++ m0

/-- provider.go: a Provider wraps one factory with its output type, its
ordered dependency types, and an invocation function. `Module` in the
source is a back-reference for diagnostics; we keep the owning module's
name. `Func` returns `(instance, error)`, modeled as `Except`. -/
structure Provider (V : Type) where
  moduleName : String
  name : String
  typ : Nat
  deps : List Nat
  func : List V → Except String V

/-- The instance-related state of `Context` (di.go): the `Instances` map,
the ordered `InstanceSlice`, plus a trace `calls` of the types whose
provider `Func` was invoked (instrumentation used to state the
invoked-exactly-once property). The Go slice stores only the instance
values; the model pairs each appended value with the type it was memoized
under, which is determined at the moment of the append. -/
structure IState (V : Type) where
  instances : List (Nat × V)
  instanceSlice : List (Nat × V)
  calls : List Nat

/-- The dependency-resolution loop inside `Context.initInstance` (di.go
lines 224-232): resolve each dependency type in declared order, collecting
the argument list and threading the context state. -/
def initDeps {V : Type} (next : Nat → IState V → Except DiError (V × IState V)) :
    List Nat → IState V → Except DiError (List V × IState V)
  | [], s => .ok ([], s)
  | d :: ds, s =>
    match next d s with
    | .error e => .error e
    | .ok (v, s1) =>
      match initDeps next ds s1 with
      | .error e => .error e
      | .ok (vs, s2) => .ok (v :: vs, s2)

/-- `Context.initInstance` (di.go lines 213-242): memoized recursive
instantiation. If the type is already instantiated return it; otherwise
look up its provider, recursively initialize the dependencies, invoke the
factory, then memoize the instance and append it to the ordered slice.
The fuel argument makes the (in Go, unbounded) recursion total. -/
def initInstance {V : Type} (P : List (Provider V)) :
    Nat → Nat → IState V → Except DiError (V × IState V)
  | 0, _, _ => .error .outOfFuel
  | fuel + 1, typ, s =>
    match s.instances.lookup typ with
    | some inst => .ok (inst, s)
    | none =>
      match P.find? (fun p => p.typ = typ) with
      | none => .error (.noProvider typ)
      | some p =>
        match initDeps (initInstance P fuel) p.deps s with
        | .error e => .error e
        | .ok (args, s1) =>
          match p.func args with
          | .error e => .error (.providerFailure e)
          | .ok inst =>
            .ok (inst, ⟨s1.instances ++ [(typ, inst)],
                        s1.instanceSlice ++ [(typ, inst)],
                        s1.calls ++ [typ]⟩)

/-- The iteration of `Context.initInstances` (di.go lines 204-211) over the
provider table, threading the state. Go iterates the `Providers` map in an
unspecified order; the model iterates the given list of type keys, so every
Go iteration order corresponds to some list. -/
def initInstancesLoop {V : Type} (P : List (Provider V)) (fuel : Nat) :
    List Nat → IState V → Except DiError (IState V)
  | [], s => .ok s
  | t :: ts, s =>
    match initInstance P fuel t s with
    | .error e => .error e
    | .ok (_, s1) => initInstancesLoop P fuel ts s1

/-- `Context.initInstances` (di.go lines 204-211): initialize an instance
for every provider in the table, starting from the empty state. -/
def initInstances {V : Type} (P : List (Provider V)) (fuel : Nat) :
    Except DiError (IState V) :=
  initInstancesLoop P fuel (P.map (·.typ)) ⟨[], [], []⟩

/-- `Context.Get` (di.go lines 70-81): type-keyed lookup in the instances
map; never constructs anything. -/
def ctxGet {V : Type} (s : IState V) (typ : Nat) : Option V :=
  s.instances.lookup typ

/-- A provider's direct dependency relation induced by a provider table:
`d` is a declared dependency type of the provider registered for `t`. -/
def DirectDep {V : Type} (P : List (Provider V)) (t d : Nat) : Prop :=
  ∃ p, P.find? (fun q => q.typ = t) = some p ∧ d ∈ p.deps

/-- Direct-and-transitive dependency relation of a provider table. -/
def TransDep {V : Type} (P : List (Provider V)) : Nat → Nat → Prop :=
  Relation.TransGen (DirectDep P)

/-- What a module's defining function (`ModuleFunc`) declares when invoked
by `newModule` (module.go): imports (by module name, the identity Go
derives from the defining function), owned providers, and explicit
context-level dependency types (`Module.Deps`). -/
structure ModuleDef (V : Type) where
  imports : List String
  providers : List (Provider V)
  deps : List Nat

/-- The universe of module definitions a program can reference: a finite
set of module names (in Go, the names of the defining functions that exist
in the program) and each name's definition. -/
structure ModuleGraph (V : Type) where
  univ : List String
  defn : String → ModuleDef V

/-- The cyclic-import scan inside `Context.initModule` (di.go lines
122-133): walk `prevNames` from the end, accumulating the path, and stop
with the accumulated path as soon as the current name is found. The
argument list here is `prevNames.reverse`, the accumulator starts as
`[name]`. Returns `some path` exactly when the name is on the path. -/
def scanCycle (name : String) : List String → List String → Option (List String)
  | _, [] => none
  | acc, prev :: rest =>
    if prev = name then some (acc ++ [prev]) else scanCycle name (acc ++ [prev]) rest

/-- The loop of `Context.initModule` over a module's imports (di.go lines
139-144), and also the loop of `Context.initModules` over the root modules
(lines 106-114): resolve each module function in order, threading the set
of resolved modules and stopping at the first error. -/
def resolveList (next : String → List String → Except DiError (List String)) :
    List String → List String → Except DiError (List String)
  | [], resolved => .ok resolved
  | name :: names, resolved =>
    match next name resolved with
    | .error e => .error e
    | .ok r => resolveList next names r

/-- `Context.initModule` (di.go lines 116-149). `resolved` is the insertion
order of `ctx.Modules` (a module is a member iff it is fully resolved; the
definition itself is recovered through `g.defn`). Already-resolved modules
short-circuit; a name already on the resolving path is a cyclic-import
error carrying the path built by `scanCycle`; otherwise the module's
imports are resolved first (with the current name pushed on the path) and
the module is appended afterwards. Fuel makes the recursion total. -/
def initModule {V : Type} (g : ModuleGraph V) :
    Nat → String → List String → List String → Except DiError (List String)
  | 0, _, _, _ => .error .outOfFuel
  | fuel + 1, name, prevNames, resolved =>
    if name ∈ resolved then .ok resolved
    else
      match scanCycle name [name] prevNames.reverse with
      | some path => .error (.cyclicImport path)
      | none =>
        match resolveList (fun imp res => initModule g fuel imp (prevNames ++ [name]) res)
            (g.defn name).imports resolved with
        | .error e => .error e
        | .ok r => .ok (r ++ [name])

/-- `Context.initModules` (di.go lines 106-114): resolve every root module
function, each with a fresh empty resolving path. The fuel
`g.univ.length + 1` is an upper bound on the recursion depth: the path is
duplicate-free (a repeat is a cyclic-import error before any recursion)
and its entries are module names of the program, so its length never
exceeds `g.univ.length`; `initModules_no_fuel_error` below proves the
fuel is never exhausted. -/
def initModules {V : Type} (g : ModuleGraph V) (roots : List String) :
    Except DiError (List String) :=
  resolveList (fun root res => initModule g (g.univ.length + 1) root [] res) roots []

/-- The flattening loop of `Context.initProviders` (di.go lines 152-162):
add every module's providers to the context-wide table keyed by output
type; a type already present is a duplicate-provider error naming the
type, the module of the new provider (module0) and the module of the
already-registered one (module1). -/
def addProviders {V : Type} :
    List (Provider V) → List (Nat × Provider V) → Except DiError (List (Nat × Provider V))
  | [], table => .ok table
  | p :: ps, table =>
    match table.lookup p.typ with
    | some p1 => .error (.duplicateProvider p.typ p.moduleName p1.moduleName)
    | none => addProviders ps (table ++ [(p.typ, p)])

/-- `Context.initProviders` (di.go lines 151-202) applied to the resolved
modules: only the duplicate check runs. The dependency-availability
computation in the source (lines 164-198) has no observable effect: the
`availableDeps` set is built but the check against it is commented out, so
no unresolved-dependency error can be raised; the model therefore omits
the dead computation. Go iterates the `Modules` map in an unspecified
order; the model uses the given list order. -/
def initProviders {V : Type} (mods : List (String × ModuleDef V)) :
    Except DiError (List (Nat × Provider V)) :=
  addProviders (mods.flatMap (fun m => m.2.providers)) []

/-- `Module.add` (module.go lines 46-53), invoked by `Module.Add` and
`Module.AddInstance` while the module's defining function runs: adding a
provider whose output type is already provided by the same module panics
immediately, at module-definition time. -/
def moduleAdd {V : Type} (name : String) (ps : List (Provider V)) (p : Provider V) :
    Except DiError (List (Provider V)) :=
  match ps.find? (fun p0 => p0.typ = p.typ) with
  | some _ => .error (.duplicateProviderInModule p.typ name)
  | none => .ok (ps ++ [p])

/-- `NewContext` (di.go lines 37-68): resolve the modules, flatten and
check the providers, then eagerly initialize every instance. On any error
no context is returned. The instance-phase fuel is a parameter (see
`initInstance`). -/
def NewContext {V : Type} (g : ModuleGraph V) (roots : List String) (fuel : Nat) :
    Except DiError (IState V) :=
  match initModules g roots with
  | .error e => .error e
  | .ok names =>
    match initProviders (names.map (fun n => (n, g.defn n))) with
    | .error e => .error e
    | .ok table => initInstances (table.map (·.2)) fuel

/-- The import relation a module set induces: `b` is directly imported by
`a`. -/
def ImportRel {V : Type} (g : ModuleGraph V) (a b : String) : Prop :=
  b ∈ (g.defn a).imports

/-- A module reachable from the root set through imports. -/
def ReachableFrom {V : Type} (g : ModuleGraph V) (roots : List String) (m : String) : Prop :=
  ∃ r ∈ roots, Relation.ReflTransGen (ImportRel g) r m

/-- A module lying on an import cycle. -/
def InCycle {V : Type} (g : ModuleGraph V) (m : String) : Prop :=
  Relation.TransGen (ImportRel g) m m

/-- The per-module available-dependency set built by
`Package.initConstructors` (package.go lines 88-113): output types of the
directly imported modules' constructors plus the module's own output
types. Explicit package-level deps are handled separately because their
absence is an error there. -/
def pkgAvailable {V : Type} (mods : List (String × ModuleDef V)) (m : ModuleDef V) :
    List Nat :=
  (m.imports.flatMap (fun i => (((mods.lookup i).getD ⟨[], [], []⟩).providers).map (·.typ)))
    ++ m.providers.map (·.typ)

/-- The package-level dependency check of `Package.initConstructors`
(package.go lines 105-113): each explicit dependency type must be in the
global constructor table; present ones join the available set. -/
def pkgCheckPackageDeps {V : Type} (global : List (Nat × Provider V)) (mname : String) :
    List Nat → Except DiError (List Nat)
  | [] => .ok []
  | d :: ds =>
    if (global.lookup d).isSome then
      match pkgCheckPackageDeps global mname ds with
      | .error e => .error e
      | .ok rest => .ok (d :: rest)
    else .error (.unresolvedPackageDep d mname)

/-- The constructor-dependency check of `Package.initConstructors`
(package.go lines 115-123): the first dependency type of a constructor not
in the available set is an unresolved-dependency error naming the type,
the constructor and the module. -/
def pkgCheckCtorDeps {V : Type} (available : List Nat) (mname : String) :
    List (Provider V) → Except DiError Unit
  | [] => .ok ()
  | c :: cs =>
    match c.deps.find? (fun d => !(available.contains d)) with
    | some d => .error (.unresolvedDep d c.name mname)
    | none => pkgCheckCtorDeps available mname cs

/-- The per-module validation loop of `Package.initConstructors`
(package.go lines 88-124). -/
def pkgCheckModules {V : Type} (mods : List (String × ModuleDef V))
    (global : List (Nat × Provider V)) :
    List (String × ModuleDef V) → Except DiError Unit
  | [] => .ok ()
  | m :: ms =>
    match pkgCheckPackageDeps global m.1 m.2.deps with
    | .error e => .error e
    | .ok pdeps =>
      match pkgCheckCtorDeps (pkgAvailable mods m.2 ++ pdeps) m.1 m.2.providers with
      | .error e => .error e
      | .ok _ => pkgCheckModules mods global ms

/-- `Package.initConstructors` (package.go lines 75-127): flatten the
constructors with the duplicate check, then run the dependency checks that
the newer `Context.initProviders` has commented out. -/
def pkgInitConstructors {V : Type} (mods : List (String × ModuleDef V)) :
    Except DiError (List (Nat × Provider V)) :=
  match addProviders (mods.flatMap (fun m => m.2.providers)) [] with
  | .error e => .error e
  | .ok table =>
    match pkgCheckModules mods table mods with
    | .error e => .error e
    | .ok _ => .ok table

/-! ## The lifecycle orchestrator (app.go)

app.go contains two generations of the orchestrator separated by a rewrite
marker. The first (lines 1-182) uses `Starter`/`Stopper` capabilities and
an error-reporting `Stop`; the second (lines 183-329) uses
`Starter`/`Closer` capabilities and performs rollback in `Start`. Both
share `withTimeout`: the service call runs on its own goroutine and the
orchestrator takes whichever comes first, the call's result or the
deadline (`ctx.Err() = context.DeadlineExceeded`). The model abstracts
each bounded call's outcome into `CallRes`: either the call completed
first with its own result, or the deadline fired first. -/

/-- A lifecycle error: `context.DeadlineExceeded` (a singleton sentinel in
Go, compared with `==`) or a service's own error. -/
inductive AppErr where
  | deadlineExceeded
  | failure (msg : String)
  deriving Repr, DecidableEq

/-- Outcome of one `withTimeout` call: the function completed before the
deadline (with `none` = nil error or `some e`), or the deadline fired
first. -/
inductive CallRes where
  | done (e : Option AppErr)
  | timedOut
  deriving Repr, DecidableEq

/-- `withTimeout` (app.go lines 170-182 and 317-329): the value returned to
the orchestrator for a call with the given outcome. -/
def withTimeoutRes : CallRes → Option AppErr
  | .done e => e
  | .timedOut => some .deadlineExceeded

/-- An instance in `Context.InstanceSlice` as the orchestrator sees it: its
structural capabilities (does it implement `Starter`, first-generation
`Stopper`, second-generation `Closer`) and the outcome of each capability
call under the deadline. `id` identifies the instance in call traces. -/
structure Svc where
  id : Nat
  starter : Bool
  startRes : CallRes
  stopper : Bool
  stopRes : CallRes
  closer : Bool
  closeRes : CallRes
  deriving Repr, DecidableEq

/-- One observable capability invocation. -/
inductive Ev where
  | startCall (id : Nat)
  | stopCall (id : Nat)
  | closeCall (id : Nat)
  deriving Repr, DecidableEq

/-- The start loop of the first-generation `App.Start` (app.go lines
106-111): call `Start` on each starter in slice order, stopping at the
first error. Threads whether the deadline has fired (`expired`, which is
what `ctx.Err()` reports afterwards) and the call trace. -/
def start1Loop : List Svc → Bool → List Ev → Option AppErr × Bool × List Ev
  | [], expired, tr => (none, expired, tr)
  | s :: rest, expired, tr =>
    let tr1 := tr ++ [Ev.startCall s.id]
    let expired1 := expired || decide (s.startRes = CallRes.timedOut)
    match withTimeoutRes s.startRes with
    | none => start1Loop rest expired1 tr1
    | some e => (some e, expired1, tr1)

/-- First-generation `App.Start` (app.go lines 93-125): filter the
starters out of `InstanceSlice`, start them in order, and return the first
error; a deadline expiry is returned as `context.DeadlineExceeded` (the
switch distinguishes it from a service's own error only for logging). -/
def start1 (slice : List Svc) : Option AppErr × List Ev :=
  match start1Loop (slice.filter (·.starter)) false [] with
  | (err, expired, tr) =>
    if expired = true ∧ err = some AppErr.deadlineExceeded then
      (some AppErr.deadlineExceeded, tr)
    else
      match err with
      | some e => (some e, tr)
      | none => (none, tr)

/-- The stop loop of the first-generation `App.Stop` (app.go lines
141-148): call `Stop` on every stopper in slice order (the source iterates
`InstanceSlice` forward), remembering only the first error and continuing
past failures. -/
def stop1Loop : List Svc → Option AppErr → Bool → List Ev → Option AppErr × Bool × List Ev
  | [], err, expired, tr => (err, expired, tr)
  | s :: rest, err, expired, tr =>
    let tr1 := tr ++ [Ev.stopCall s.id]
    let expired1 := expired || decide (s.stopRes = CallRes.timedOut)
    let err1 :=
      match err, withTimeoutRes s.stopRes with
      | none, some e => some e
      | _, _ => err
    stop1Loop rest err1 expired1 tr1

/-- First-generation `App.Stop` (app.go lines 128-161): stop every stopper
(forward over `InstanceSlice`), keep the first error; if the first error
is the deadline sentinel and the deadline indeed fired, log "Stop timed
out." and return nil, otherwise return the first error. -/
def stop1 (slice : List Svc) : Option AppErr × List Ev :=
  match stop1Loop (slice.filter (·.stopper)) none false [] with
  | (err, expired, tr) =>
    if expired = true ∧ err = some AppErr.deadlineExceeded then (none, tr)
    else
      match err with
      | some e => (some e, tr)
      | none => (none, tr)

/-- Second-generation `App.Start` (app.go lines 263-297): start the
starters in slice order, accumulating successfully started services in
`started`. On the first failure: if nothing started yet return the failure
directly; otherwise call `Close` (when the service implements `Closer`) on
every started service in reverse order, ignoring the rollback results, and
return the original start failure. -/
def start2Loop : List Svc → List Svc → List Ev → Option AppErr × List Ev
  | [], _, tr => (none, tr)
  | s :: rest, started, tr =>
    let tr1 := tr ++ [Ev.startCall s.id]
    match withTimeoutRes s.startRes with
    | none => start2Loop rest (started ++ [s]) tr1
    | some e =>
      if started.isEmpty then (some e, tr1)
      else (some e, tr1 ++ (started.reverse.filter (·.closer)).map (fun c => Ev.closeCall c.id))

/-- Second-generation `App.Start` entry point. -/
def start2 (slice : List Svc) : Option AppErr × List Ev :=
  start2Loop (slice.filter (·.starter)) [] []

/-- Second-generation `App.Stop` (app.go lines 300-315): call `Close` on
every closer, forward over `InstanceSlice`, ignoring all results; always
returns nil. -/
def stop2 (slice : List Svc) : Option AppErr × List Ev :=
  (none, (slice.filter (·.closer)).map (fun s => Ev.closeCall s.id))

/-! ## Struct-field injection (di.go Context.Inject, graph.go Graph.Fill) -/

/-- `Context.Inject` (di.go lines 91-104) and `Graph.Fill` (graph.go lines
157-170): for every field of the target struct, if the instance map has an
entry for the field's exact type, assign it; otherwise leave the field
untouched. A field is modeled as its type tag paired with its current
value; the Go loop iterates the fields in declaration order. -/
def fillFields {V : Type} (instances : List (Nat × V)) (fields : List (Nat × V)) :
    List (Nat × V) :=
  fields.map (fun f =>
    match instances.lookup f.1 with
    | some v => (f.1, v)
    | none => f)

/-- `di.Inject` (di.go lines 19-27): build a context, then inject; the only
error source is context construction — injection itself reports none. -/
def injectWrapper {V : Type} (g : ModuleGraph V) (roots : List String) (fuel : Nat)
    (fields : List (Nat × V)) : Except DiError (List (Nat × V)) :=
  match NewContext g roots fuel with
  | .error e => .error e
  | .ok s => .ok (fillFields s.instances fields)

/-! ## The factory wrapper of provider.go

`newProvider` (provider.go lines 46-60) wraps a factory. For a factory
with two return values it evaluates
`err := out[1].Interface().(error)` unconditionally. When the factory's
error is nil, `out[1].Interface()` is a nil interface value and the type
assertion `.(error)` panics at run time ("interface conversion: interface
is nil, not error"). The model represents a two-return factory as a
function to `V × Option String` and a Go panic as a distinguished result. -/

/-- Result of invoking the provider wrapper: a normal Go return of
`(instance, error)`, or a run-time panic. -/
inductive InvokeRes (V : Type) where
  | ret (v : V) (e : Option String)
  | panicked (msg : String)
  deriving Repr, DecidableEq

/-- The invocation function `newProvider` builds for a two-return factory
(provider.go lines 46-60): call the factory, then unconditionally assert
`out[1]` to `error`. A nil error makes the assertion panic; a non-nil
error is returned alongside the instance. -/
def newProviderFunc2 {V : Type} (factory : List V → V × Option String) (args : List V) :
    InvokeRes V :=
  match factory args with
  | (_, none) => .panicked "interface conversion: interface is nil, not error"
  | (v, some e) => .ret v (some e)

/-- The invocation function `newProvider` builds for a single-return
factory (provider.go lines 52-55): return the instance with a nil error. -/
def newProviderFunc1 {V : Type} (factory : List V → V) (args : List V) : InvokeRes V :=
  .ret (factory args) none

/-- `Provider.create`'s result handling in the earlier rewrite
(src/unnamed/part_001 lines 303-316): for a two-return factory it checks
`result[1].IsNil()` and only then performs the assertion, so a nil factory
error is returned as a nil error with the instance. -/
def part001CreateResult {V : Type} (factory : List V → V × Option String) (args : List V) :
    InvokeRes V :=
  match factory args with
  | (v, none) => .ret v none
  | (v, some e) => .ret v (some e)

/-! ## Association-list helpers -/

theorem lookup_cons_self {V : Type} (a : Nat) (v : V) (l : List (Nat × V)) :
    ((a, v) :: l).lookup a = some v := by
  simp [List.lookup]

theorem lookup_cons_ne {V : Type} {a k : Nat} (v : V) (l : List (Nat × V)) (h : a ≠ k) :
    ((k, v) :: l).lookup a = l.lookup a := by
  simp [List.lookup, beq_false_of_ne h]

theorem lookup_append_some {V : Type} {l : List (Nat × V)} {a : Nat} {b : V}
    (l2 : List (Nat × V)) (h : l.lookup a = some b) : (l ++ l2).lookup a = some b := by
  induction l with
  | nil => simp [List.lookup] at h
  | cons p ps ih =>
    cases p with
    | mk k v =>
      by_cases hak : a = k
      · subst hak
        rw [lookup_cons_self] at h
        simpa [lookup_cons_self] using h
      · rw [lookup_cons_ne v ps hak] at h
        simpa [lookup_cons_ne v _ hak] using ih h

theorem lookup_append_none {V : Type} {l : List (Nat × V)} {a : Nat}
    (l2 : List (Nat × V)) (h : l.lookup a = none) : (l ++ l2).lookup a = l2.lookup a := by
  induction l with
  | nil => simp
  | cons p ps ih =>
    cases p with
    | mk k v =>
      by_cases hak : a = k
      · subst hak
        rw [lookup_cons_self] at h
        exact absurd h (by simp)
      · rw [lookup_cons_ne v ps hak] at h
        simpa [lookup_cons_ne v _ hak] using ih h

theorem lookup_none_iff {V : Type} (l : List (Nat × V)) (a : Nat) :
    l.lookup a = none ↔ a ∉ l.map Prod.fst := by
  induction l with
  | nil => simp
  | cons p ps ih =>
    cases p with
    | mk k v =>
      by_cases hak : a = k
      · subst hak
        simp [lookup_cons_self]
      · rw [lookup_cons_ne v ps hak]
        simp [ih, hak]

theorem mem_of_lookup_some {V : Type} {l : List (Nat × V)} {a : Nat} {b : V}
    (h : l.lookup a = some b) : a ∈ l.map Prod.fst := by
  by_contra hmem
  rw [← lookup_none_iff] at hmem
  rw [h] at hmem
  exact Option.noConfusion hmem

theorem lookup_some_of_mem {V : Type} {l : List (Nat × V)} {a : Nat}
    (h : a ∈ l.map Prod.fst) : ∃ b, l.lookup a = some b := by
  cases hl : l.lookup a with
  | none => exact absurd ((lookup_none_iff l a).mp hl) (by simp [h])
  | some b => exact ⟨b, rfl⟩

/-! ## Invariants of the instantiation algorithm -/

/-- The memoization keys of a context state, in append order. -/
def Keys {V : Type} (s : IState V) : List Nat :=
  s.instanceSlice.map Prod.fst

/-- Dependency-closedness of an ordered key list: every listed type has a
provider in the table and that provider's dependency types all occur at
strictly earlier positions. -/
def SliceClosed {V : Type} (P : List (Provider V)) (ks : List Nat) : Prop :=
  ∀ (i t : Nat), ks[i]? = some t →
    ∃ p, P.find? (fun q => q.typ = t) = some p ∧
      ∀ d ∈ p.deps, ∃ j : Nat, j < i ∧ ks[j]? = some d

/-- The basic invariant of instantiation: the instances map and the ordered
slice hold the same bindings in the same order, the call trace lists
exactly the slice keys, and the slice keys are dependency-closed. -/
def Good0 {V : Type} (P : List (Provider V)) (s : IState V) : Prop :=
  s.instances = s.instanceSlice ∧
  s.calls = s.instanceSlice.map Prod.fst ∧
  SliceClosed P (s.instanceSlice.map Prod.fst)

theorem mem_iff_exists_getElem? {α : Type} (l : List α) (a : α) :
    a ∈ l ↔ ∃ i : Nat, l[i]? = some a := by
  constructor
  · intro h
    obtain ⟨i, hi, hv⟩ := List.getElem_of_mem h
    exact ⟨i, by rw [List.getElem?_eq_getElem hi, hv]⟩
  · rintro ⟨i, hi⟩
    have hlt : i < l.length := (List.getElem?_eq_some.mp hi).choose
    have := (List.getElem?_eq_some.mp hi).choose_spec
    exact this ▸ List.getElem_mem hlt

theorem sliceClosed_append {V : Type} {P : List (Provider V)} {ks : List Nat} {t : Nat}
    {p : Provider V} (hks : SliceClosed P ks)
    (hp : P.find? (fun q => q.typ = t) = some p) (hdeps : ∀ d ∈ p.deps, d ∈ ks) :
    SliceClosed P (ks ++ [t]) := by
  unfold SliceClosed at hks ⊢
  intro i u hu
  rcases lt_or_ge i ks.length with hi | hi
  · rw [List.getElem?_append_left hi] at hu
    obtain ⟨q, hq, hqd⟩ := hks i u hu
    refine ⟨q, hq, fun d hd => ?_⟩
    obtain ⟨j, hj, hjd⟩ := hqd d hd
    exact ⟨j, hj, by rw [List.getElem?_append_left (lt_trans hj hi)]; exact hjd⟩
  · have hil : i = ks.length := by
      by_contra hne
      have : (ks ++ [t]).length ≤ i := by
        simp only [List.length_append, List.length_singleton]
        omega
      rw [List.getElem?_len_le this] at hu
      exact Option.noConfusion hu
    subst hil
    have ht : u = t := by
      have hval : (ks ++ [t])[ks.length]? = some t := by simp
      rw [hval] at hu
      exact (Option.some.inj hu).symm
    subst ht
    refine ⟨p, hp, fun d hd => ?_⟩
    obtain ⟨j, hj⟩ := (mem_iff_exists_getElem? ks d).mp (hdeps d hd)
    have hjlt : j < ks.length := (List.getElem?_eq_some.mp hj).choose
    exact ⟨j, hjlt, by rw [List.getElem?_append_left hjlt]; exact hj⟩

/-- What a single successful `initInstance`-style call guarantees: the
invariant is preserved, the slice only grows at the end, and the requested
type ends up bound in the instances map. -/
def NextGood {V : Type} (P : List (Provider V))
    (next : Nat → IState V → Except DiError (V × IState V)) : Prop :=
  ∀ (t : Nat) (s : IState V) (v : V) (s1 : IState V), Good0 P s →
    next t s = .ok (v, s1) →
    Good0 P s1 ∧ (∃ u, s1.instanceSlice = s.instanceSlice ++ u) ∧
      ∃ w, s1.instances.lookup t = some w

theorem initDeps_good {V : Type} {P : List (Provider V)}
    {next : Nat → IState V → Except DiError (V × IState V)} (hnext : NextGood P next) :
    ∀ (ds : List Nat) (s : IState V) (vs : List V) (s1 : IState V), Good0 P s →
      initDeps next ds s = .ok (vs, s1) →
      Good0 P s1 ∧ (∃ u, s1.instanceSlice = s.instanceSlice ++ u) ∧
        ∀ d ∈ ds, ∃ w, s1.instances.lookup d = some w := by
  intro ds
  induction ds with
  | nil =>
    intro s vs s1 hs h
    simp only [initDeps, Except.ok.injEq, Prod.mk.injEq] at h
    obtain ⟨-, hs1⟩ := h
    subst hs1
    exact ⟨hs, ⟨[], by simp⟩, by simp⟩
  | cons d ds ih =>
    intro s vs s1 hs h
    simp only [initDeps] at h
    split at h
    · exact absurd h (by simp)
    · rename_i v sm heq
      split at h
      · exact absurd h (by simp)
      · rename_i vs2 s2 heq2
        simp only [Except.ok.injEq, Prod.mk.injEq] at h
        obtain ⟨-, hs1⟩ := h
        subst hs1
        obtain ⟨hgm, ⟨u1, hu1⟩, w, hw⟩ := hnext d s v sm hs heq
        obtain ⟨hg1, ⟨u2, hu2⟩, hds⟩ := ih sm vs2 s2 hgm heq2
        have hinst : s2.instances = sm.instances ++ u2 := by
          rw [hg1.1, hgm.1, hu2]
        refine ⟨hg1, ⟨u1 ++ u2, by rw [hu2, hu1, List.append_assoc]⟩, ?_⟩
        intro d0 hd0
        rcases List.mem_cons.mp hd0 with hd0 | hd0
        · subst hd0
          exact ⟨w, by rw [hinst]; exact lookup_append_some u2 hw⟩
        · exact hds d0 hd0

theorem initInstance_ok_good {V : Type} (P : List (Provider V)) :
    ∀ fuel : Nat, NextGood P (initInstance P fuel) := by
  intro fuel
  induction fuel with
  | zero =>
    intro t s v s1 hs h
    simp [initInstance] at h
  | succ f ih =>
    intro t s v s1 hs h
    simp only [initInstance] at h
    split at h
    · rename_i inst heq
      simp only [Except.ok.injEq, Prod.mk.injEq] at h
      obtain ⟨hv, hs1⟩ := h
      subst hs1
      exact ⟨hs, ⟨[], by simp⟩, inst, heq⟩
    · rename_i heqNone
      split at h
      · exact absurd h (by simp)
      · rename_i p heqP
        split at h
        · exact absurd h (by simp)
        · rename_i args sm heqD
          split at h
          · exact absurd h (by simp)
          · rename_i inst heqF
            simp only [Except.ok.injEq, Prod.mk.injEq] at h
            obtain ⟨hv, hs1⟩ := h
            subst hv
            obtain ⟨hgm, ⟨u1, hu1⟩, hds⟩ := initDeps_good ih p.deps s args sm hs heqD
            have hdepsMem : ∀ d ∈ p.deps, d ∈ sm.instanceSlice.map Prod.fst := by
              intro d hd
              obtain ⟨w, hw⟩ := hds d hd
              have := mem_of_lookup_some hw
              rwa [hgm.1] at this
            have hgood1 : Good0 P s1 := by
              refine ⟨?_, ?_, ?_⟩
              · rw [← hs1]
                simp only
                rw [hgm.1]
              · rw [← hs1]
                simp only
                rw [hgm.2.1]
                simp
              · rw [← hs1]
                simp only [List.map_append]
                exact sliceClosed_append hgm.2.2 heqP hdepsMem
            refine ⟨hgood1, ⟨u1 ++ [(t, inst)], ?_⟩, ?_⟩
            · rw [← hs1]
              simp only
              rw [hu1, List.append_assoc]
            · rw [← hs1]
              simp only
              cases hlm : sm.instances.lookup t with
              | some w => exact ⟨w, lookup_append_some _ hlm⟩
              | none =>
                refine ⟨inst, ?_⟩
                rw [lookup_append_none _ hlm, lookup_cons_self]

theorem good0_empty {V : Type} (P : List (Provider V)) : Good0 P ⟨[], [], []⟩ := by
  refine ⟨rfl, rfl, ?_⟩
  intro i t h
  simp at h

theorem initInstancesLoop_good {V : Type} {P : List (Provider V)} (fuel : Nat) :
    ∀ (ts : List Nat) (s s1 : IState V), Good0 P s →
      initInstancesLoop P fuel ts s = .ok s1 →
      Good0 P s1 ∧ (∃ u, s1.instanceSlice = s.instanceSlice ++ u) ∧
        ∀ t ∈ ts, ∃ w, s1.instances.lookup t = some w := by
  intro ts
  induction ts with
  | nil =>
    intro s s1 hs h
    simp only [initInstancesLoop, Except.ok.injEq] at h
    subst h
    exact ⟨hs, ⟨[], by simp⟩, by simp⟩
  | cons t ts ih =>
    intro s s1 hs h
    simp only [initInstancesLoop] at h
    split at h
    · exact absurd h (by simp)
    · rename_i v sm heq
      obtain ⟨hgm, ⟨u1, hu1⟩, w, hw⟩ := initInstance_ok_good P fuel t s v sm hs heq
      obtain ⟨hg1, ⟨u2, hu2⟩, hts⟩ := ih sm s1 hgm h
      have hinst : s1.instances = sm.instances ++ u2 := by
        rw [hg1.1, hgm.1, hu2]
      refine ⟨hg1, ⟨u1 ++ u2, by rw [hu2, hu1, List.append_assoc]⟩, ?_⟩
      intro t0 ht0
      rcases List.mem_cons.mp ht0 with ht0 | ht0
      · subst ht0
        exact ⟨w, by rw [hinst]; exact lookup_append_some u2 hw⟩
      · exact hts t0 ht0

theorem sliceClosed_transDep_before {V : Type} {P : List (Provider V)} {ks : List Nat}
    (hks : SliceClosed P ks) {t d : Nat} (h : TransDep P t d) :
    ∀ i : Nat, ks[i]? = some t → ∃ j : Nat, j < i ∧ ks[j]? = some d := by
  induction h with
  | single hstep =>
    rename_i b
    intro i hi
    obtain ⟨p, hp, hpd⟩ := hks i t hi
    obtain ⟨q, hq, hbq⟩ := hstep
    rw [hp] at hq
    obtain rfl : p = q := Option.some.inj hq
    exact hpd b hbq
  | tail hab hbc ih =>
    rename_i b c
    intro i hi
    obtain ⟨j, hj, hjb⟩ := ih i hi
    obtain ⟨p, hp, hpd⟩ := hks j b hjb
    obtain ⟨q, hq, hcq⟩ := hbc
    rw [hp] at hq
    obtain rfl : p = q := Option.some.inj hq
    obtain ⟨k, hk, hkc⟩ := hpd c hcq
    exact ⟨k, lt_trans hk hj, hkc⟩

theorem good_transdep_mem {V : Type} {P : List (Provider V)} {s : IState V} (hs : Good0 P s)
    {a b : Nat} (ha : a ∈ s.instanceSlice.map Prod.fst) (hab : TransDep P a b) :
    b ∈ s.instanceSlice.map Prod.fst := by
  obtain ⟨i, hi⟩ := (mem_iff_exists_getElem? _ a).mp ha
  obtain ⟨j, -, hjb⟩ := sliceClosed_transDep_before hs.2.2 hab i hi
  exact (mem_iff_exists_getElem? _ b).mpr ⟨j, hjb⟩

theorem initDeps_adds {V : Type} {P : List (Provider V)}
    {next : Nat → IState V → Except DiError (V × IState V)}
    (hnext : ∀ (t : Nat) (s : IState V) (v : V) (s1 : IState V), next t s = .ok (v, s1) →
      ∀ u : Nat, u ∈ s1.instanceSlice.map Prod.fst →
        u ∈ s.instanceSlice.map Prod.fst ∨ u = t ∨ TransDep P t u) :
    ∀ (ds : List Nat) (s : IState V) (vs : List V) (s1 : IState V),
      initDeps next ds s = .ok (vs, s1) → ∀ u : Nat, u ∈ s1.instanceSlice.map Prod.fst →
        u ∈ s.instanceSlice.map Prod.fst ∨ ∃ d ∈ ds, u = d ∨ TransDep P d u := by
  intro ds
  induction ds with
  | nil =>
    intro s vs s1 h u hu
    simp only [initDeps, Except.ok.injEq, Prod.mk.injEq] at h
    obtain ⟨-, hs1⟩ := h
    subst hs1
    exact Or.inl hu
  | cons d ds ih =>
    intro s vs s1 h u hu
    simp only [initDeps] at h
    split at h
    · exact absurd h (by simp)
    · rename_i v sm heq
      split at h
      · exact absurd h (by simp)
      · rename_i vs2 s2 heq2
        simp only [Except.ok.injEq, Prod.mk.injEq] at h
        obtain ⟨-, hs1⟩ := h
        subst hs1
        rcases ih sm vs2 s2 heq2 u hu with hm | ⟨d0, hd0, hc⟩
        · rcases hnext d s v sm heq u hm with hm0 | hc0
          · exact Or.inl hm0
          · exact Or.inr ⟨d, List.mem_cons_self d ds, hc0⟩
        · exact Or.inr ⟨d0, List.mem_cons_of_mem d hd0, hc⟩

theorem initInstance_adds {V : Type} (P : List (Provider V)) :
    ∀ (fuel t : Nat) (s : IState V) (v : V) (s1 : IState V),
      initInstance P fuel t s = .ok (v, s1) → ∀ u : Nat,
      u ∈ s1.instanceSlice.map Prod.fst →
      u ∈ s.instanceSlice.map Prod.fst ∨ u = t ∨ TransDep P t u := by
  intro fuel
  induction fuel with
  | zero =>
    intro t s v s1 h
    simp [initInstance] at h
  | succ f ih =>
    intro t s v s1 h u hu
    simp only [initInstance] at h
    split at h
    · rename_i inst heq
      simp only [Except.ok.injEq, Prod.mk.injEq] at h
      obtain ⟨-, hs1⟩ := h
      subst hs1
      exact Or.inl hu
    · rename_i heqNone
      split at h
      · exact absurd h (by simp)
      · rename_i p heqP
        split at h
        · exact absurd h (by simp)
        · rename_i args sm heqD
          split at h
          · exact absurd h (by simp)
          · rename_i inst heqF
            simp only [Except.ok.injEq, Prod.mk.injEq] at h
            obtain ⟨-, hs1⟩ := h
            rw [← hs1] at hu
            simp only [List.map_append] at hu
            rcases List.mem_append.mp hu with hm | hm
            · rcases initDeps_adds ih p.deps s args sm heqD u hm with hm0 | ⟨d, hd, hc⟩
              · exact Or.inl hm0
              · have hdir : DirectDep P t d := ⟨p, heqP, hd⟩
                rcases hc with rfl | htd
                · exact Or.inr (Or.inr (Relation.TransGen.single hdir))
                · exact Or.inr (Or.inr (Relation.TransGen.head hdir htd))
            · simp at hm
              exact Or.inr (Or.inl hm)

theorem initDeps_preserve_absent {V : Type} {P : List (Provider V)}
    {next : Nat → IState V → Except DiError (V × IState V)} (hnextG : NextGood P next)
    (hnextC : ∀ (t : Nat) (s : IState V) (v : V) (s1 : IState V) (u : Nat), Good0 P s →
      next t s = .ok (v, s1) → TransDep P u u →
      s.instances.lookup u = none → s1.instances.lookup u = none) :
    ∀ (ds : List Nat) (s : IState V) (vs : List V) (s1 : IState V) (u : Nat), Good0 P s →
      initDeps next ds s = .ok (vs, s1) → TransDep P u u →
      s.instances.lookup u = none → s1.instances.lookup u = none := by
  intro ds
  induction ds with
  | nil =>
    intro s vs s1 u hs h hcyc hnone
    simp only [initDeps, Except.ok.injEq, Prod.mk.injEq] at h
    obtain ⟨-, hs1⟩ := h
    subst hs1
    exact hnone
  | cons d ds ih =>
    intro s vs s1 u hs h hcyc hnone
    simp only [initDeps] at h
    split at h
    · exact absurd h (by simp)
    · rename_i v sm heq
      split at h
      · exact absurd h (by simp)
      · rename_i vs2 s2 heq2
        simp only [Except.ok.injEq, Prod.mk.injEq] at h
        obtain ⟨-, hs1⟩ := h
        subst hs1
        have hgm := (hnextG d s v sm hs heq).1
        exact ih sm vs2 s2 u hgm heq2 hcyc (hnextC d s v sm u hs heq hcyc hnone)

theorem initDeps_cycle_no_ok {V : Type} {P : List (Provider V)}
    {next : Nat → IState V → Except DiError (V × IState V)} (hnextG : NextGood P next)
    (hnextC : ∀ (t : Nat) (s : IState V) (v : V) (s1 : IState V) (u : Nat), Good0 P s →
      next t s = .ok (v, s1) → TransDep P u u →
      s.instances.lookup u = none → s1.instances.lookup u = none)
    (hnextB : ∀ (t : Nat) (s : IState V) (v : V) (s1 : IState V), Good0 P s → TransDep P t t →
      s.instances.lookup t = none → next t s = .ok (v, s1) → False) :
    ∀ (ds : List Nat) (s : IState V) (vs : List V) (s1 : IState V) (d : Nat), Good0 P s →
      d ∈ ds → TransDep P d d → s.instances.lookup d = none →
      initDeps next ds s = .ok (vs, s1) → False := by
  intro ds
  induction ds with
  | nil =>
    intro s vs s1 d _ hd
    exact absurd hd (by simp)
  | cons d0 ds ih =>
    intro s vs s1 d hs hd hcyc hnone h
    simp only [initDeps] at h
    split at h
    · exact absurd h (by simp)
    · rename_i v sm heq
      split at h
      · exact absurd h (by simp)
      · rename_i vs2 s2 heq2
        rcases List.mem_cons.mp hd with rfl | hd
        · exact hnextB d s v sm hs hcyc hnone heq
        · have hgm := (hnextG d0 s v sm hs heq).1
          exact ih sm vs2 s2 d hgm hd hcyc (hnextC d0 s v sm d hs heq hcyc hnone) heq2

/-- C1: in every successfully constructed context, every instance's
position in the ordered `InstanceSlice` is strictly after the positions of
all instances of its provider's direct and transitive dependency types:
dependencies always precede dependents. -/
theorem instanceSlice_topologically_ordered {V : Type} (P : List (Provider V)) (fuel : Nat)
    (s1 : IState V) (h : initInstances P fuel = .ok s1) :
    ∀ t d : Nat, TransDep P t d → ∀ i : Nat,
      (s1.instanceSlice.map Prod.fst)[i]? = some t →
      ∃ j : Nat, j < i ∧ (s1.instanceSlice.map Prod.fst)[j]? = some d := by
  intro t d htd i hi
  have h2 : initInstancesLoop P fuel (P.map (·.typ)) ⟨[], [], []⟩ = .ok s1 := h
  obtain ⟨hg1, -, -⟩ :=
    initInstancesLoop_good fuel (P.map (·.typ)) ⟨[], [], []⟩ s1 (good0_empty P) h2
  exact sliceClosed_transDep_before hg1.2.2 htd i hi

/-- A type lying on a dependency cycle and not yet instantiated can never
be instantiated (in Go the recursion would not terminate; in the model the
fuel runs out), and a successful call never adds such a type. These two
facts are proved together by strong induction on the fuel. -/
theorem initInstance_cycle {V : Type} (P : List (Provider V)) :
    ∀ fuel : Nat,
      (∀ (t : Nat) (s : IState V) (v : V) (s1 : IState V), Good0 P s → TransDep P t t →
        s.instances.lookup t = none → initInstance P fuel t s = .ok (v, s1) → False) ∧
      (∀ (t : Nat) (s : IState V) (v : V) (s1 : IState V) (u : Nat), Good0 P s →
        initInstance P fuel t s = .ok (v, s1) → TransDep P u u →
        s.instances.lookup u = none → s1.instances.lookup u = none) := by
  intro fuel
  induction fuel using Nat.strong_induction_on with
  | _ fuel ih =>
    cases fuel with
    | zero =>
      constructor
      · intro t s v s1 _ _ _ h
        simp [initInstance] at h
      · intro t s v s1 u _ h _ _
        simp [initInstance] at h
    | succ f =>
      have hf := ih f (Nat.lt_succ_self f)
      have hB : ∀ (t : Nat) (s : IState V) (v : V) (s1 : IState V), Good0 P s → TransDep P t t →
          s.instances.lookup t = none → initInstance P (f + 1) t s = .ok (v, s1) → False := by
        intro t s v s1 hs hcyc hnone h
        simp only [initInstance] at h
        split at h
        · rename_i inst heq
          rw [hnone] at heq
          exact Option.noConfusion heq
        · split at h
          · exact absurd h (by simp)
          · rename_i p heqP
            split at h
            · exact absurd h (by simp)
            · rename_i args sm heqD
              obtain ⟨d, hstep, hdt⟩ := Relation.TransGen.head'_iff.mp hcyc
              obtain ⟨q, hq, hdq⟩ := hstep
              rw [heqP] at hq
              obtain rfl : p = q := Option.some.inj hq
              have hstep : DirectDep P t d := ⟨p, heqP, hdq⟩
              have hcycd : TransDep P d d := Relation.TransGen.tail' hdt hstep
              have habs : s.instances.lookup d = none := by
                cases hld : s.instances.lookup d with
                | none => rfl
                | some w =>
                  exfalso
                  have hmem : d ∈ s.instanceSlice.map Prod.fst := by
                    have := mem_of_lookup_some hld
                    rwa [hs.1] at this
                  rcases Relation.reflTransGen_iff_eq_or_transGen.mp hdt with rfl | htg
                  · rw [hnone] at hld
                    exact Option.noConfusion hld
                  · have hmt := good_transdep_mem hs hmem htg
                    have hnotin := (lookup_none_iff s.instances t).mp hnone
                    rw [hs.1] at hnotin
                    exact hnotin hmt
              exact initDeps_cycle_no_ok (initInstance_ok_good P f) hf.2 hf.1
                p.deps s args sm d hs hdq hcycd habs heqD
      have hC : ∀ (t : Nat) (s : IState V) (v : V) (s1 : IState V) (u : Nat), Good0 P s →
          initInstance P (f + 1) t s = .ok (v, s1) → TransDep P u u →
          s.instances.lookup u = none → s1.instances.lookup u = none := by
        intro t s v s1 u hs h hcyc hnone
        by_cases hut : u = t
        · subst hut
          exact (hB u s v s1 hs hcyc hnone h).elim
        · simp only [initInstance] at h
          split at h
          · rename_i inst heq
            simp only [Except.ok.injEq, Prod.mk.injEq] at h
            obtain ⟨-, hs1⟩ := h
            subst hs1
            exact hnone
          · split at h
            · exact absurd h (by simp)
            · rename_i p heqP
              split at h
              · exact absurd h (by simp)
              · rename_i args sm heqD
                split at h
                · exact absurd h (by simp)
                · rename_i inst heqF
                  simp only [Except.ok.injEq, Prod.mk.injEq] at h
                  obtain ⟨-, hs1⟩ := h
                  have hsm : sm.instances.lookup u = none :=
                    initDeps_preserve_absent (initInstance_ok_good P f) hf.2
                      p.deps s args sm u hs heqD hcyc hnone
                  rw [← hs1]
                  simp only
                  rw [lookup_append_none _ hsm, lookup_cons_ne _ _ hut]
                  simp [List.lookup]
      exact ⟨hB, hC⟩

theorem initDeps_nodup {V : Type} {P : List (Provider V)}
    {next : Nat → IState V → Except DiError (V × IState V)} (hnextG : NextGood P next)
    (hnextN : ∀ (t : Nat) (s : IState V) (v : V) (s1 : IState V), Good0 P s →
      (s.instanceSlice.map Prod.fst).Nodup → next t s = .ok (v, s1) →
      (s1.instanceSlice.map Prod.fst).Nodup) :
    ∀ (ds : List Nat) (s : IState V) (vs : List V) (s1 : IState V), Good0 P s →
      (s.instanceSlice.map Prod.fst).Nodup → initDeps next ds s = .ok (vs, s1) →
      (s1.instanceSlice.map Prod.fst).Nodup := by
  intro ds
  induction ds with
  | nil =>
    intro s vs s1 hs hnd h
    simp only [initDeps, Except.ok.injEq, Prod.mk.injEq] at h
    obtain ⟨-, hs1⟩ := h
    subst hs1
    exact hnd
  | cons d ds ih =>
    intro s vs s1 hs hnd h
    simp only [initDeps] at h
    split at h
    · exact absurd h (by simp)
    · rename_i v sm heq
      split at h
      · exact absurd h (by simp)
      · rename_i vs2 s2 heq2
        simp only [Except.ok.injEq, Prod.mk.injEq] at h
        obtain ⟨-, hs1⟩ := h
        subst hs1
        have hgm := (hnextG d s v sm hs heq).1
        exact ih sm vs2 s2 hgm (hnextN d s v sm hs hnd heq) heq2

theorem initInstance_nodup {V : Type} (P : List (Provider V)) :
    ∀ (fuel t : Nat) (s : IState V) (v : V) (s1 : IState V), Good0 P s →
      (s.instanceSlice.map Prod.fst).Nodup → initInstance P fuel t s = .ok (v, s1) →
      (s1.instanceSlice.map Prod.fst).Nodup := by
  intro fuel
  induction fuel with
  | zero =>
    intro t s v s1 _ _ h
    simp [initInstance] at h
  | succ f ih =>
    intro t s v s1 hs hnd h
    simp only [initInstance] at h
    split at h
    · rename_i inst heq
      simp only [Except.ok.injEq, Prod.mk.injEq] at h
      obtain ⟨-, hs1⟩ := h
      subst hs1
      exact hnd
    · rename_i heqNone
      split at h
      · exact absurd h (by simp)
      · rename_i p heqP
        split at h
        · exact absurd h (by simp)
        · rename_i args sm heqD
          split at h
          · exact absurd h (by simp)
          · rename_i inst heqF
            simp only [Except.ok.injEq, Prod.mk.injEq] at h
            obtain ⟨-, hs1⟩ := h
            have hndm : (sm.instanceSlice.map Prod.fst).Nodup :=
              initDeps_nodup (initInstance_ok_good P f) ih p.deps s args sm hs hnd heqD
            have htnotin : t ∉ sm.instanceSlice.map Prod.fst := by
              intro hmem
              by_cases hcyc : TransDep P t t
              · have habs : sm.instances.lookup t = none :=
                  initDeps_preserve_absent (initInstance_ok_good P f) (initInstance_cycle P f).2
                    p.deps s args sm t hs heqD hcyc heqNone
                have hgm := (initDeps_good (initInstance_ok_good P f) p.deps s args sm hs heqD).1
                have : t ∉ sm.instanceSlice.map Prod.fst := by
                  have := (lookup_none_iff _ _).mp habs
                  rwa [hgm.1] at this
                exact this hmem
              · rcases initDeps_adds (initInstance_adds P f) p.deps s args sm heqD t hmem with
                  hins | ⟨d, hd, hc⟩
                · have : t ∉ s.instanceSlice.map Prod.fst := by
                    have := (lookup_none_iff _ _).mp heqNone
                    rwa [hs.1] at this
                  exact this hins
                · have hdir : DirectDep P t d := ⟨p, heqP, hd⟩
                  rcases hc with rfl | htd
                  · exact hcyc (Relation.TransGen.single hdir)
                  · exact hcyc (Relation.TransGen.head hdir htd)
            rw [← hs1]
            simp only [List.map_append]
            refine List.Nodup.append hndm (List.nodup_singleton t) ?_
            intro a ha hat
            simp only [List.map_cons, List.map_nil, List.mem_singleton] at hat
            subst hat
            exact htnotin ha

theorem initInstancesLoop_nodup {V : Type} {P : List (Provider V)} (fuel : Nat) :
    ∀ (ts : List Nat) (s s1 : IState V), Good0 P s →
      (s.instanceSlice.map Prod.fst).Nodup → initInstancesLoop P fuel ts s = .ok s1 →
      (s1.instanceSlice.map Prod.fst).Nodup := by
  intro ts
  induction ts with
  | nil =>
    intro s s1 _ hnd h
    simp only [initInstancesLoop, Except.ok.injEq] at h
    subst h
    exact hnd
  | cons t ts ih =>
    intro s s1 hs hnd h
    simp only [initInstancesLoop] at h
    split at h
    · exact absurd h (by simp)
    · rename_i v sm heq
      have hgm := (initInstance_ok_good P fuel t s v sm hs heq).1
      exact ih sm s1 hgm (initInstance_nodup P fuel t s v sm hs hnd heq) h

/-- C2: in every successfully constructed context, at most one instance per
type exists (the slice keys are duplicate-free), every registered
provider's factory was invoked exactly once during construction, and every
later request for a registered type — `Get` or a further `initInstance`
call — returns the identical memoized instance without touching the
context. -/
theorem initInstances_singleton_once {V : Type} (P : List (Provider V)) (fuel : Nat)
    (s1 : IState V) (h : initInstances P fuel = .ok s1) :
    (s1.instanceSlice.map Prod.fst).Nodup ∧
    (∀ p ∈ P, s1.calls.count p.typ = 1) ∧
    (∀ p ∈ P, ∃ v, ctxGet s1 p.typ = some v ∧
      ∀ f : Nat, initInstance P (f + 1) p.typ s1 = .ok (v, s1)) := by
  have h2 : initInstancesLoop P fuel (P.map (·.typ)) ⟨[], [], []⟩ = .ok s1 := h
  obtain ⟨hg1, -, hmem⟩ :=
    initInstancesLoop_good fuel (P.map (·.typ)) ⟨[], [], []⟩ s1 (good0_empty P) h2
  have hnd : (s1.instanceSlice.map Prod.fst).Nodup :=
    initInstancesLoop_nodup fuel (P.map (·.typ)) ⟨[], [], []⟩ s1 (good0_empty P)
      (by simp) h2
  refine ⟨hnd, ?_, ?_⟩
  · intro p hp
    obtain ⟨w, hw⟩ := hmem p.typ (List.mem_map_of_mem _ hp)
    have hmemk : p.typ ∈ s1.instanceSlice.map Prod.fst := by
      have := mem_of_lookup_some hw
      rwa [hg1.1] at this
    rw [hg1.2.1]
    have h1 : (s1.instanceSlice.map Prod.fst).count p.typ ≤ 1 :=
      List.nodup_iff_count_le_one.mp hnd p.typ
    have h3 : 0 < (s1.instanceSlice.map Prod.fst).count p.typ :=
      List.count_pos_iff.mpr hmemk
    omega
  · intro p hp
    obtain ⟨w, hw⟩ := hmem p.typ (List.mem_map_of_mem _ hp)
    refine ⟨w, hw, fun f => ?_⟩
    simp [initInstance, hw]

/-- A two-provider example table: type 1 (produced by a factory depending
on type 2) and type 2 (a constant factory). -/
def pA : Provider Nat :=
  { moduleName := "main.ModuleA", name := "main.newA", typ := 1, deps := [2],
    func := fun args => .ok (100 + args.foldl (· + ·) 0) }

/-- The dependency-free provider of the example table. -/
def pB : Provider Nat :=
  { moduleName := "main.ModuleA", name := "main.newB", typ := 2, deps := [],
    func := fun _ => .ok 7 }

/-- The context state produced from the example table. -/
def sW : IState Nat :=
  ⟨[(2, 7), (1, 107)], [(2, 7), (1, 107)], [2, 1]⟩

/-- Witness for C1: on the concrete table `[pA, pB]`, construction
succeeds, type 2 is a transitive dependency of type 1, and type 2's
position (0) is strictly before type 1's position (1). -/
theorem instanceSlice_topologically_ordered_witness :
    initInstances [pA, pB] 3 = .ok sW ∧
    ∃ j : Nat, j < 1 ∧ (sW.instanceSlice.map Prod.fst)[j]? = some 2 := by
  refine ⟨rfl, ?_⟩
  exact instanceSlice_topologically_ordered [pA, pB] 3 sW rfl 1 2
    (Relation.TransGen.single ⟨pA, rfl, by simp [pA]⟩) 1 rfl

/-- Witness for C2: on the concrete table `[pA, pB]`, the slice keys are
duplicate-free, provider `pA`'s factory was invoked exactly once, and the
memoized instance of type 1 is returned unchanged by later requests. -/
theorem initInstances_singleton_once_witness :
    (sW.instanceSlice.map Prod.fst).Nodup ∧ sW.calls.count pA.typ = 1 ∧
    ∃ v, ctxGet sW pA.typ = some v ∧ initInstance [pA, pB] 1 pA.typ sW = .ok (v, sW) := by
  obtain ⟨h1, h2, h3⟩ := initInstances_singleton_once [pA, pB] 3 sW rfl
  obtain ⟨v, hv, hf⟩ := h3 pA (by simp)
  exact ⟨h1, h2 pA (by simp), v, hv, hf 0⟩

/-- A service that only implements the first-generation `Stopper`
capability, with a stop call that completes cleanly. -/
def svcStop (i : Nat) : Svc :=
  { id := i, starter := false, startRes := .done none, stopper := true, stopRes := .done none,
    closer := false, closeRes := .done none }

/-- A service that only implements the second-generation `Closer`
capability, with a close call that completes cleanly. -/
def svcClose (i : Nat) : Svc :=
  { id := i, starter := false, startRes := .done none, stopper := false, stopRes := .done none,
    closer := true, closeRes := .done none }

/-- A stopper whose stop call exceeds the deadline. -/
def svcStopTimeout : Svc :=
  { id := 5, starter := false, startRes := .done none, stopper := true, stopRes := .timedOut,
    closer := false, closeRes := .done none }

/-- A starter whose start call exceeds the deadline. -/
def svcStartTimeout : Svc :=
  { id := 4, starter := true, startRes := .timedOut, stopper := false, stopRes := .done none,
    closer := false, closeRes := .done none }

/-- C7 (evidence): both generations of `App.Stop` iterate `InstanceSlice`
forward. For three stoppers X, Y, Z appearing at slice positions 1, 2, 3,
the first-generation `Stop` invokes stop in order X, Y, Z — not the
reverse order Z, Y, X that the claim (and the `App` doc comment in the
source) states; the second generation behaves the same for closers. -/
theorem stop_runs_forward_not_reverse :
    (stop1 [svcStop 1, svcStop 2, svcStop 3]).2 =
      [Ev.stopCall 1, Ev.stopCall 2, Ev.stopCall 3] ∧
    (stop1 [svcStop 1, svcStop 2, svcStop 3]).2 ≠
      [Ev.stopCall 3, Ev.stopCall 2, Ev.stopCall 1] ∧
    (stop2 [svcClose 1, svcClose 2, svcClose 3]).2 =
      [Ev.closeCall 1, Ev.closeCall 2, Ev.closeCall 3] := by
  refine ⟨by decide, by decide, by decide⟩

/-- C8 (evidence): for a `(value, error)` factory that succeeds (returns a
nil error), the wrapper produced by `newProvider` (provider.go) panics in
the unconditional `out[1].Interface().(error)` assertion instead of
yielding the instance with a nil error; the earlier rewrite's
`Provider.create` (src/unnamed/part_001) guards with `IsNil` and returns
the instance. A non-nil factory error is passed through (and aborts
construction). -/
theorem newProvider_nil_error_panics :
    newProviderFunc2 (fun _ => (7, none)) ([] : List Nat) =
      .panicked "interface conversion: interface is nil, not error" ∧
    part001CreateResult (fun _ => (7, none)) ([] : List Nat) = .ret 7 none ∧
    newProviderFunc2 (fun _ => (7, some "boom")) ([] : List Nat) = .ret 7 (some "boom") :=
  ⟨rfl, rfl, rfl⟩

/-- C9 counterexample: when the only stopper's stop call exceeds its
deadline, the first-generation `App.Stop` returns nil — the distinct
timed-out condition is logged but not reported as the orchestrator's
result, contradicting the claim for `App.Stop`. -/
theorem stop1_swallows_timeout :
    (stop1 [svcStopTimeout]).1 = none ∧
    ¬ (stop1 [svcStopTimeout]).1 = some AppErr.deadlineExceeded := by
  refine ⟨by decide, by decide⟩

/-- C10: `Fill`/`Inject` assigns every field whose exact type has a
registered instance, leaves every field with no registered instance
unchanged at its prior value, and the `Inject` wrapper reports no error
once construction succeeded — unmatched fields are not an error. -/
theorem fillFields_partial_fill {V : Type} (inst fields : List (Nat × V)) (i t : Nat) (v0 : V)
    (hf : fields[i]? = some (t, v0)) :
    (∀ w, inst.lookup t = some w → (fillFields inst fields)[i]? = some (t, w)) ∧
    (inst.lookup t = none → (fillFields inst fields)[i]? = some (t, v0)) ∧
    (∀ {W : Type} (g : ModuleGraph W) (roots : List String) (fuel : Nat) (s : IState W)
      (fs : List (Nat × W)), NewContext g roots fuel = .ok s →
      injectWrapper g roots fuel fs = .ok (fillFields s.instances fs)) := by
  refine ⟨?_, ?_, ?_⟩
  · intro w hw
    rw [fillFields, List.getElem?_map, hf]
    simp [hw]
  · intro hw
    rw [fillFields, List.getElem?_map, hf]
    simp [hw]
  · intro W g roots fuel s fs hok
    rw [injectWrapper, hok]

/-- Witness for C10: with instances for types 1 and 2 and a target struct
with fields of types 1 (matched) and 3 (unmatched), the type-1 field is
assigned the instance and the type-3 field keeps its prior value. -/
theorem fillFields_partial_fill_witness :
    (fillFields [(1, 10), (2, 20)] [(1, 0), (3, 7)])[0]? = some (1, 10) ∧
    (fillFields [(1, 10), (2, 20)] [(1, 0), (3, 7)])[1]? = some (3, 7) :=
  ⟨(fillFields_partial_fill [(1, 10), (2, 20)] [(1, 0), (3, 7)] 0 1 0 rfl).1 10 rfl,
   (fillFields_partial_fill [(1, 10), (2, 20)] [(1, 0), (3, 7)] 1 3 7 rfl).2.1 rfl⟩

theorem withTimeoutRes_eq_none {c : CallRes} (h : withTimeoutRes c = none) :
    c = .done none := by
  cases c with
  | done e =>
    cases e with
    | none => rfl
    | some e => simp [withTimeoutRes] at h
  | timedOut => simp [withTimeoutRes] at h

theorem start2Loop_first_failure (e : AppErr) :
    ∀ (pre : List Svc) (rest : List Svc) (s : Svc) (started : List Svc) (tr : List Ev),
      (∀ x ∈ pre, withTimeoutRes x.startRes = none) → withTimeoutRes s.startRes = some e →
      start2Loop (pre ++ s :: rest) started tr =
        (some e, tr ++ (pre ++ [s]).map (fun x => Ev.startCall x.id) ++
          (if (started ++ pre).isEmpty then []
           else ((started ++ pre).reverse.filter (·.closer)).map
             (fun c => Ev.closeCall c.id))) := by
  intro pre
  induction pre with
  | nil =>
    intro rest s started tr _ hs
    simp only [List.nil_append, start2Loop, hs, List.append_nil]
    by_cases hst : started.isEmpty
    · simp [hst]
    · simp [hst]
  | cons p ps ih =>
    intro rest s started tr hpre hs
    have hp : withTimeoutRes p.startRes = none := hpre p (by simp)
    have step : start2Loop ((p :: ps) ++ s :: rest) started tr =
        start2Loop (ps ++ s :: rest) (started ++ [p]) (tr ++ [Ev.startCall p.id]) := by
      simp only [List.cons_append, start2Loop, hp, List.append_eq]
    rw [step, ih rest s (started ++ [p]) (tr ++ [Ev.startCall p.id])
      (fun x hx => hpre x (by simp [hx])) hs]
    have hrearr : (started ++ [p]) ++ ps = started ++ p :: ps := by
      rw [List.append_assoc]
      rfl
    rw [hrearr]
    simp [List.append_assoc]

/-- C4: in the second-generation `App.Start`, when the starters split as a
successful prefix `pre`, a first failing service `s` (failing with `e`),
and a remainder `rest`, the result is exactly: the original failure `e`,
start calls for `pre` and `s` only, and — only when something already
started — close calls for the closers among `pre` in reverse start order,
exactly once each. Services after the failing one are never started or
stopped, and rollback outcomes never replace the original failure. -/
theorem start2_rollback (slice : List Svc) (pre rest : List Svc) (s : Svc) (e : AppErr)
    (hsplit : slice.filter (·.starter) = pre ++ s :: rest)
    (hpre : ∀ x ∈ pre, withTimeoutRes x.startRes = none)
    (hs : withTimeoutRes s.startRes = some e) :
    start2 slice =
      (some e, (pre ++ [s]).map (fun x => Ev.startCall x.id) ++
        (if pre.isEmpty then []
         else (pre.reverse.filter (·.closer)).map (fun c => Ev.closeCall c.id))) := by
  rw [start2, hsplit, start2Loop_first_failure e pre rest s [] [] hpre hs]
  simp

/-- A starter+closer service that starts and closes cleanly. -/
def svcX : Svc :=
  { id := 1, starter := true, startRes := .done none, stopper := true, stopRes := .done none,
    closer := true, closeRes := .done none }

/-- A starter whose start call fails with its own error. -/
def svcY : Svc :=
  { id := 2, starter := true, startRes := .done (some (.failure "y start failed")),
    stopper := true, stopRes := .done none, closer := true, closeRes := .done none }

/-- A starter+closer service after the failing one. -/
def svcZ : Svc :=
  { id := 3, starter := true, startRes := .done none, stopper := true, stopRes := .done none,
    closer := true, closeRes := .done none }

/-- Witness for C4: X starts, Y fails, X is closed once (rollback), Z is
never started or stopped, and the returned error is Y's start failure. -/
theorem start2_rollback_witness :
    start2 [svcX, svcY, svcZ] =
      (some (AppErr.failure "y start failed"),
        [Ev.startCall 1, Ev.startCall 2, Ev.closeCall 1]) := by
  have h := start2_rollback [svcX, svcY, svcZ] [svcX] [svcZ] svcY
    (AppErr.failure "y start failed") (by decide) (by decide) (by decide)
  exact h.trans (by decide)

theorem stop1Loop_err_stays :
    ∀ (ss : List Svc) (e : AppErr) (expired : Bool) (tr : List Ev),
      stop1Loop ss (some e) expired tr =
        (some e, expired || ss.any (fun x => decide (x.stopRes = CallRes.timedOut)),
         tr ++ ss.map (fun x => Ev.stopCall x.id)) := by
  intro ss
  induction ss with
  | nil =>
    intro e expired tr
    simp [stop1Loop]
  | cons s ss ih =>
    intro e expired tr
    simp only [stop1Loop]
    rw [ih]
    simp [Bool.or_assoc]

theorem stop1Loop_first_err (e : AppErr) :
    ∀ (pre : List Svc) (rest : List Svc) (s : Svc) (expired : Bool) (tr : List Ev),
      (∀ x ∈ pre, withTimeoutRes x.stopRes = none) → withTimeoutRes s.stopRes = some e →
      stop1Loop (pre ++ s :: rest) none expired tr =
        (some e,
         (expired || decide (s.stopRes = CallRes.timedOut)) ||
           rest.any (fun x => decide (x.stopRes = CallRes.timedOut)),
         tr ++ (pre ++ s :: rest).map (fun x => Ev.stopCall x.id)) := by
  intro pre
  induction pre with
  | nil =>
    intro rest s expired tr _ hs
    simp only [List.nil_append, stop1Loop, hs]
    rw [stop1Loop_err_stays]
    simp
  | cons p ps ih =>
    intro rest s expired tr hpre hs
    have hp : withTimeoutRes p.stopRes = none := hpre p (by simp)
    have hpd : p.stopRes = CallRes.done none := withTimeoutRes_eq_none hp
    have step : stop1Loop ((p :: ps) ++ s :: rest) none expired tr =
        stop1Loop (ps ++ s :: rest) none expired (tr ++ [Ev.stopCall p.id]) := by
      simp only [List.cons_append, stop1Loop, hpd, List.append_eq]
      simp [withTimeoutRes]
    rw [step, ih rest s expired (tr ++ [Ev.stopCall p.id]) (fun x hx => hpre x (by simp [hx])) hs]
    simp [List.append_assoc]

theorem start1Loop_first_failure (e : AppErr) :
    ∀ (pre : List Svc) (rest : List Svc) (s : Svc) (expired : Bool) (tr : List Ev),
      (∀ x ∈ pre, withTimeoutRes x.startRes = none) → withTimeoutRes s.startRes = some e →
      start1Loop (pre ++ s :: rest) expired tr =
        (some e, expired || decide (s.startRes = CallRes.timedOut),
         tr ++ (pre ++ [s]).map (fun x => Ev.startCall x.id)) := by
  intro pre
  induction pre with
  | nil =>
    intro rest s expired tr _ hs
    simp only [List.nil_append, start1Loop, hs, List.append_nil]
    rfl
  | cons p ps ih =>
    intro rest s expired tr hpre hs
    have hp : withTimeoutRes p.startRes = none := hpre p (by simp)
    have hpd : p.startRes = CallRes.done none := withTimeoutRes_eq_none hp
    have step : start1Loop ((p :: ps) ++ s :: rest) expired tr =
        start1Loop (ps ++ s :: rest) expired (tr ++ [Ev.startCall p.id]) := by
      simp only [List.cons_append, start1Loop, hpd, List.append_eq]
      simp [withTimeoutRes]
    rw [step, ih rest s expired (tr ++ [Ev.startCall p.id]) (fun x hx => hpre x (by simp [hx])) hs]
    simp [List.append_assoc]

/-- C9 amended: the first-generation `App.Start` reports a deadline expiry
as the distinct `context.DeadlineExceeded` result (and a service's own
start error verbatim, so the two are not conflated); the first-generation
`App.Stop` distinguishes a deadline expiry from a service's own stop error
but returns nil for it (logging "Stop timed out."), reporting only a
non-timeout first stop error as its result. -/
theorem timeout_reporting_amended :
    (∀ (slice pre rest : List Svc) (s : Svc),
      slice.filter (·.starter) = pre ++ s :: rest →
      (∀ x ∈ pre, withTimeoutRes x.startRes = none) → s.startRes = CallRes.timedOut →
      (start1 slice).1 = some AppErr.deadlineExceeded) ∧
    (∀ (slice pre rest : List Svc) (s : Svc) (m : String),
      slice.filter (·.starter) = pre ++ s :: rest →
      (∀ x ∈ pre, withTimeoutRes x.startRes = none) →
      s.startRes = CallRes.done (some (AppErr.failure m)) →
      (start1 slice).1 = some (AppErr.failure m)) ∧
    (∀ (slice pre rest : List Svc) (s : Svc),
      slice.filter (·.stopper) = pre ++ s :: rest →
      (∀ x ∈ pre, withTimeoutRes x.stopRes = none) → s.stopRes = CallRes.timedOut →
      (stop1 slice).1 = none) ∧
    (∀ (slice pre rest : List Svc) (s : Svc) (m : String),
      slice.filter (·.stopper) = pre ++ s :: rest →
      (∀ x ∈ pre, withTimeoutRes x.stopRes = none) →
      s.stopRes = CallRes.done (some (AppErr.failure m)) →
      (stop1 slice).1 = some (AppErr.failure m)) := by
  refine ⟨?_, ?_, ?_, ?_⟩
  · intro slice pre rest s hsplit hpre hs
    rw [start1, hsplit,
      start1Loop_first_failure AppErr.deadlineExceeded pre rest s false []
        hpre (by rw [hs]; rfl)]
    simp [hs]
  · intro slice pre rest s m hsplit hpre hs
    rw [start1, hsplit,
      start1Loop_first_failure (AppErr.failure m) pre rest s false []
        hpre (by rw [hs]; rfl)]
    simp [hs]
  · intro slice pre rest s hsplit hpre hs
    rw [stop1, hsplit,
      stop1Loop_first_err AppErr.deadlineExceeded pre rest s false []
        hpre (by rw [hs]; rfl)]
    simp [hs]
  · intro slice pre rest s m hsplit hpre hs
    rw [stop1, hsplit,
      stop1Loop_first_err (AppErr.failure m) pre rest s false []
        hpre (by rw [hs]; rfl)]
    simp [hs]

/-- Witness for the amended C9: a timing-out starter makes `Start` return
`DeadlineExceeded`; a timing-out stopper makes `Stop` return nil. -/
theorem timeout_reporting_amended_witness :
    (start1 [svcStartTimeout]).1 = some AppErr.deadlineExceeded ∧
    (stop1 [svcStopTimeout]).1 = none :=
  ⟨timeout_reporting_amended.1 [svcStartTimeout] [] [] svcStartTimeout (by decide)
      (by simp) (by decide),
   timeout_reporting_amended.2.2.1 [svcStopTimeout] [] [] svcStopTimeout (by decide)
      (by simp) (by decide)⟩

/-! ## Duplicate-provider detection -/

theorem lookup_mem {β : Type} {l : List (Nat × β)} {a : Nat} {b : β}
    (h : l.lookup a = some b) : (a, b) ∈ l := by
  induction l with
  | nil => simp [List.lookup] at h
  | cons p ps ih =>
    cases p with
    | mk k v =>
      by_cases hak : a = k
      · subst hak
        rw [lookup_cons_self] at h
        obtain rfl := Option.some.inj h
        exact List.mem_cons_self _ _
      · rw [lookup_cons_ne v ps hak] at h
        exact List.mem_cons_of_mem _ (ih h)

theorem addProviders_ok {V : Type} :
    ∀ (ps : List (Provider V)) (table table1 : List (Nat × Provider V)),
      addProviders ps table = .ok table1 →
      table1.map Prod.fst = table.map Prod.fst ++ ps.map (·.typ) ∧
      ((table.map Prod.fst).Nodup → (table1.map Prod.fst).Nodup) := by
  intro ps
  induction ps with
  | nil =>
    intro table table1 h
    simp only [addProviders, Except.ok.injEq] at h
    subst h
    simp
  | cons p ps ih =>
    intro table table1 h
    simp only [addProviders] at h
    split at h
    · exact absurd h (by simp)
    · rename_i hnone
      obtain ⟨hkeys, hnd⟩ := ih (table ++ [(p.typ, p)]) table1 h
      constructor
      · rw [hkeys]
        simp
      · intro hta
        refine hnd ?_
        rw [List.map_append]
        refine List.Nodup.append hta (by simp) ?_
        intro a ha hb
        simp only [List.map_cons, List.map_nil, List.mem_singleton] at hb
        subst hb
        exact ((lookup_none_iff table p.typ).mp hnone) ha

theorem addProviders_error_char {V : Type} :
    ∀ (ps : List (Provider V)) (table : List (Nat × Provider V)) (e : DiError),
      (∀ kv ∈ table, kv.1 = kv.2.typ) →
      addProviders ps table = .error e →
      ∃ p p1 psPre psSuf, e = .duplicateProvider p.typ p.moduleName p1.moduleName ∧
        ps = psPre ++ p :: psSuf ∧ p1.typ = p.typ ∧
        (p1 ∈ table.map Prod.snd ∨ p1 ∈ psPre) := by
  intro ps
  induction ps with
  | nil =>
    intro table e _ h
    simp [addProviders] at h
  | cons p ps ih =>
    intro table e hinv h
    simp only [addProviders] at h
    split at h
    · rename_i p1 hlk
      simp only [Except.error.injEq] at h
      subst h
      have hmem := lookup_mem hlk
      refine ⟨p, p1, [], ps, rfl, rfl, ?_, Or.inl ?_⟩
      · exact (hinv (p.typ, p1) hmem).symm
      · exact List.mem_map.mpr ⟨(p.typ, p1), hmem, rfl⟩
    · rename_i hnone
      have hinv2 : ∀ kv ∈ table ++ [(p.typ, p)], kv.1 = kv.2.typ := by
        intro kv hkv
        rcases List.mem_append.mp hkv with hm | hm
        · exact hinv kv hm
        · simp only [List.mem_singleton] at hm
          subst hm
          rfl
      obtain ⟨q, q1, pre, suf, he, hps, ht, hloc⟩ := ih (table ++ [(p.typ, p)]) e hinv2 h
      refine ⟨q, q1, p :: pre, suf, he, by rw [hps]; rfl, ht, ?_⟩
      rcases hloc with hin | hin
      · rw [List.map_append] at hin
        rcases List.mem_append.mp hin with hin | hin
        · exact Or.inl hin
        · simp only [List.map_cons, List.map_nil, List.mem_singleton] at hin
          subst hin
          exact Or.inr (List.mem_cons_self _ _)
      · exact Or.inr (List.mem_cons_of_mem _ hin)

theorem flat_providers_nodup {V : Type} (mods : List (String × ModuleDef V))
    (hnames : (mods.map Prod.fst).Nodup)
    (hwf : ∀ m ∈ mods, ∀ q ∈ m.2.providers, q.moduleName = m.1)
    (hinner : ∀ m ∈ mods, ((m.2.providers).map (·.typ)).Nodup) :
    (mods.flatMap (fun m => m.2.providers)).Nodup := by
  rw [List.nodup_flatMap]
  constructor
  · intro m hm
    exact (hinner m hm).of_map
  · have hp : mods.Pairwise (fun a b => a.1 ≠ b.1) := by
      rw [List.Nodup, List.pairwise_map] at hnames
      exact hnames
    refine List.Pairwise.imp_of_mem ?_ hp
    intro a b ha hb hab
    intro q hqa hqb
    have h1 := hwf a ha q hqa
    have h2 := hwf b hb q hqb
    exact hab (h1 ▸ h2 ▸ rfl)

/-- C6: adding two providers of the same output type to one module fails
immediately at module-definition time (the `Module.add` panic); and when
two providers registered in different modules share an output type,
`Context.initProviders` fails with a duplicate-provider error that names
the shared type and two distinct modules each owning a provider of that
type. -/
theorem duplicate_provider_detection {V : Type} :
    (∀ (mname : String) (ps : List (Provider V)) (p p0 : Provider V), p0 ∈ ps →
      p0.typ = p.typ →
      moduleAdd mname ps p = .error (.duplicateProviderInModule p.typ mname)) ∧
    (∀ mods : List (String × ModuleDef V),
      (mods.map Prod.fst).Nodup →
      (∀ m ∈ mods, ∀ q ∈ m.2.providers, q.moduleName = m.1) →
      (∀ m ∈ mods, ((m.2.providers).map (·.typ)).Nodup) →
      ∀ m0 ∈ mods, ∀ m1 ∈ mods, ∀ q0 ∈ m0.2.providers, ∀ q1 ∈ m1.2.providers,
        m0.1 ≠ m1.1 → q0.typ = q1.typ →
        ∃ t mA mB, initProviders mods = .error (.duplicateProvider t mA mB) ∧ mA ≠ mB ∧
          (∃ p ∈ mods.flatMap (fun m => m.2.providers), p.typ = t ∧ p.moduleName = mA) ∧
          (∃ p1 ∈ mods.flatMap (fun m => m.2.providers), p1.typ = t ∧ p1.moduleName = mB)) := by
  constructor
  · intro mname ps p p0 h0 ht
    rw [moduleAdd]
    cases hf : ps.find? (fun q => q.typ = p.typ) with
    | some q => rfl
    | none =>
      exfalso
      have := List.find?_eq_none.mp hf p0 h0
      simp [ht] at this
  · intro mods hnames hwf hinner m0 hm0 m1 hm1 q0 hq0 q1 hq1 hne hqt
    have hq0f : q0 ∈ mods.flatMap (fun m => m.2.providers) :=
      List.mem_flatMap.mpr ⟨m0, hm0, hq0⟩
    have hq1f : q1 ∈ mods.flatMap (fun m => m.2.providers) :=
      List.mem_flatMap.mpr ⟨m1, hm1, hq1⟩
    cases hres : initProviders mods with
    | ok table1 =>
      exfalso
      obtain ⟨hkeys, hnd⟩ :=
        addProviders_ok (mods.flatMap (fun m => m.2.providers)) [] table1 hres
      have hknd : (table1.map Prod.fst).Nodup := hnd (by simp)
      rw [hkeys] at hknd
      simp only [List.map_nil, List.nil_append] at hknd
      have heq := List.inj_on_of_nodup_map hknd hq0f hq1f hqt
      have h1 := hwf m0 hm0 q0 hq0
      have h2 := hwf m1 hm1 q1 hq1
      rw [heq] at h1
      exact hne (h1 ▸ h2 ▸ rfl)
    | error e =>
      obtain ⟨p, p1, pre, suf, he, hps, ht, hloc⟩ :=
        addProviders_error_char (mods.flatMap (fun m => m.2.providers)) [] e (by simp) hres
      rcases hloc with h0 | h0
      · simp at h0
      subst he
      have hpf : p ∈ mods.flatMap (fun m => m.2.providers) := by
        rw [hps]
        exact List.mem_append.mpr (Or.inr (List.mem_cons_self _ _))
      have hp1f : p1 ∈ mods.flatMap (fun m => m.2.providers) := by
        rw [hps]
        exact List.mem_append.mpr (Or.inl h0)
      refine ⟨p.typ, p.moduleName, p1.moduleName, rfl, ?_, ⟨p, hpf, rfl, rfl⟩,
        ⟨p1, hp1f, ht, rfl⟩⟩
      intro hmm
      obtain ⟨mp, hmp, hpmem⟩ := List.mem_flatMap.mp hpf
      obtain ⟨mp1, hmp1, hp1mem⟩ := List.mem_flatMap.mp hp1f
      have hn1 : p.moduleName = mp.1 := hwf mp hmp p hpmem
      have hn2 : p1.moduleName = mp1.1 := hwf mp1 hmp1 p1 hp1mem
      have hmpeq : mp = mp1 := by
        refine List.inj_on_of_nodup_map hnames hmp hmp1 ?_
        rw [← hn1, ← hn2, hmm]
      subst hmpeq
      have hpeq : p1 = p :=
        List.inj_on_of_nodup_map (hinner mp hmp) hp1mem hpmem ht
      subst hpeq
      have hfnd := flat_providers_nodup mods hnames hwf hinner
      rw [hps, List.nodup_append] at hfnd
      exact hfnd.2.2 h0 (List.mem_cons_self _ _)

/-- A provider of type 5 owned by module main.ModA. -/
def qDup1 : Provider Nat :=
  { moduleName := "main.ModA", name := "main.newS1", typ := 5, deps := [],
    func := fun _ => .ok 1 }

/-- A second provider of the same type 5, owned by module main.ModB. -/
def qDup2 : Provider Nat :=
  { moduleName := "main.ModB", name := "main.newS2", typ := 5, deps := [],
    func := fun _ => .ok 2 }

/-- Two modules each contributing one provider of the shared type 5. -/
def modsDup : List (String × ModuleDef Nat) :=
  [("main.ModA", ⟨[], [qDup1], []⟩), ("main.ModB", ⟨[], [qDup2], []⟩)]

/-- Witness for C6: adding a second type-5 provider to main.ModA fails at
module-definition time, and flattening the two modules that both provide
type 5 fails with a duplicate-provider error naming two distinct owning
modules and the shared type. -/
theorem duplicate_provider_detection_witness :
    moduleAdd "main.ModA" [qDup1] qDup2 =
      .error (.duplicateProviderInModule 5 "main.ModA") ∧
    ∃ t mA mB, initProviders modsDup = .error (.duplicateProvider t mA mB) ∧ mA ≠ mB ∧
      (∃ p ∈ modsDup.flatMap (fun m => m.2.providers), p.typ = t ∧ p.moduleName = mA) ∧
      (∃ p1 ∈ modsDup.flatMap (fun m => m.2.providers), p1.typ = t ∧ p1.moduleName = mB) := by
  constructor
  · exact duplicate_provider_detection.1 "main.ModA" [qDup1] qDup2 qDup1
      (List.mem_singleton.mpr rfl) rfl
  · refine duplicate_provider_detection.2 modsDup (by decide) ?_ ?_
      ("main.ModA", ⟨[], [qDup1], []⟩) (by simp [modsDup])
      ("main.ModB", ⟨[], [qDup2], []⟩) (by simp [modsDup])
      qDup1 (List.mem_singleton.mpr rfl) qDup2 (List.mem_singleton.mpr rfl)
      (by decide) rfl
    · intro m hm q hq
      rcases List.mem_cons.mp hm with rfl | hm
      · obtain rfl := List.mem_singleton.mp hq
        rfl
      · rcases List.mem_cons.mp hm with rfl | hm
        · obtain rfl := List.mem_singleton.mp hq
          rfl
        · simp at hm
    · intro m hm
      rcases List.mem_cons.mp hm with rfl | hm
      · simp
      · rcases List.mem_cons.mp hm with rfl | hm
        · simp
        · simp at hm

/-! ## The missing unresolved-dependency check (C3) -/

/-- A provider in main.Module1 whose factory needs type 100, which
main.Module1 neither provides nor imports. -/
def pNeed : Provider Nat :=
  { moduleName := "main.Module1", name := "main.newService", typ := 200, deps := [100],
    func := fun args => .ok (args.headD 0 + 1) }

/-- The provider of type 100, owned by the sibling module main.Module2
(not imported by main.Module1). -/
def pStr : Provider Nat :=
  { moduleName := "main.Module2", name := "string", typ := 100, deps := [],
    func := fun _ => .ok 42 }

/-- Two sibling modules: Module1 needs type 100 but does not import
Module2, which provides it. -/
def gUnres : ModuleGraph Nat :=
  { univ := ["main.Module1", "main.Module2"],
    defn := fun n =>
      if n = "main.Module1" then ⟨[], [pNeed], []⟩
      else if n = "main.Module2" then ⟨[], [pStr], []⟩
      else ⟨[], [], []⟩ }

/-- C3 (evidence): the dependency check of `Context.initProviders` is
commented out in di.go (lines 190-198), so `NewContext` on a module whose
provider needs a type supplied by no module it imports does not raise the
unresolved-dependency error the claim requires: here it even succeeds,
resolving type 100 through the global provider table from the sibling
module that was never imported. The older `Package.initConstructors`
(package.go lines 115-123) still performs the check and fails with the
unresolved-dependency error naming the type, the constructor, and the
module — as does the repository's own test
Test_NewContext__should_return_error_on_unresolved_provider_dependency,
which the current code cannot pass. -/
theorem unresolved_dependency_check_missing :
    (∃ s, NewContext gUnres ["main.Module1", "main.Module2"] 3 = .ok s) ∧
    pkgInitConstructors
        [("main.Module1", gUnres.defn "main.Module1"),
         ("main.Module2", gUnres.defn "main.Module2")] =
      .error (.unresolvedDep 100 "main.newService" "main.Module1") :=
  ⟨⟨_, rfl⟩, rfl⟩

/-! ## Cyclic-import detection (C5) -/

/-- Import-closedness of the resolved-module list of `Context.initModule`:
each resolved module's imports were resolved at strictly earlier
positions. This is the key invariant behind cycle detection: a success
produces an import-topologically ordered list. -/
def MClosed {V : Type} (g : ModuleGraph V) (l : List String) : Prop :=
  ∀ (i : Nat) (m : String), l[i]? = some m →
    ∀ d ∈ (g.defn m).imports, ∃ j : Nat, j < i ∧ l[j]? = some d

theorem scanCycle_none_iff (name : String) :
    ∀ (acc l : List String), scanCycle name acc l = none ↔ name ∉ l := by
  intro acc l
  induction l generalizing acc with
  | nil => simp [scanCycle]
  | cons prev rest ih =>
    by_cases hp : prev = name
    · subst hp
      simp [scanCycle]
    · rw [scanCycle]
      simp only [if_neg hp, ih, List.mem_cons]
      constructor
      · intro h hc
        rcases hc with hc | hc
        · exact hp hc.symm
        · exact h hc
      · intro h hc
        exact h (Or.inr hc)

theorem scanCycle_some_decomp (name : String) :
    ∀ (l acc res : List String), scanCycle name acc l = some res →
      ∃ w1 w2, l = w1 ++ name :: w2 ∧ name ∉ w1 ∧ res = acc ++ w1 ++ [name] := by
  intro l
  induction l with
  | nil =>
    intro acc res h
    simp [scanCycle] at h
  | cons prev rest ih =>
    intro acc res h
    rw [scanCycle] at h
    by_cases hp : prev = name
    · subst hp
      rw [if_pos rfl] at h
      obtain rfl := Option.some.inj h
      exact ⟨[], rest, rfl, by simp, by simp⟩
    · rw [if_neg hp] at h
      obtain ⟨w1, w2, hrest, hnotin, hres⟩ := ih (acc ++ [prev]) res h
      refine ⟨prev :: w1, w2, by rw [hrest]; rfl, ?_, ?_⟩
      · intro hc
        rcases List.mem_cons.mp hc with hc | hc
        · exact hp hc.symm
        · exact hnotin hc
      · rw [hres]
        simp

theorem resolveList_error {next : String → List String → Except DiError (List String)} :
    ∀ (names res : List String) (e : DiError), resolveList next names res = .error e →
      ∃ n ∈ names, ∃ res0, next n res0 = .error e := by
  intro names
  induction names with
  | nil =>
    intro res e h
    simp [resolveList] at h
  | cons n ns ih =>
    intro res e h
    simp only [resolveList] at h
    split at h
    · rename_i heq
      simp only [Except.error.injEq] at h
      subst h
      exact ⟨n, List.mem_cons_self _ _, res, heq⟩
    · rename_i r heq
      obtain ⟨n0, hn0, res0, h0⟩ := ih r e h
      exact ⟨n0, List.mem_cons_of_mem _ hn0, res0, h0⟩

theorem resolveList_ok {V : Type} {g : ModuleGraph V}
    {next : String → List String → Except DiError (List String)}
    (hnext : ∀ (n : String) (res res' : List String), next n res = .ok res' →
      (∃ u, res' = res ++ u) ∧ n ∈ res' ∧ (MClosed g res → MClosed g res')) :
    ∀ (names res res' : List String), resolveList next names res = .ok res' →
      (∃ u, res' = res ++ u) ∧ (∀ n ∈ names, n ∈ res') ∧
      (MClosed g res → MClosed g res') := by
  intro names
  induction names with
  | nil =>
    intro res res' h
    simp only [resolveList, Except.ok.injEq] at h
    subst h
    exact ⟨⟨[], by simp⟩, by simp, fun hc => hc⟩
  | cons n ns ih =>
    intro res res' h
    simp only [resolveList] at h
    split at h
    · exact absurd h (by simp)
    · rename_i r heq
      obtain ⟨⟨u1, hu1⟩, hn, hcl⟩ := hnext n res r heq
      obtain ⟨⟨u2, hu2⟩, hns, hcl2⟩ := ih r res' h
      refine ⟨⟨u1 ++ u2, by rw [hu2, hu1, List.append_assoc]⟩, ?_, fun hc => hcl2 (hcl hc)⟩
      intro n0 hn0
      rcases List.mem_cons.mp hn0 with rfl | hn0
      · rw [hu2]
        exact List.mem_append.mpr (Or.inl hn)
      · exact hns n0 hn0

theorem mclosed_append {V : Type} {g : ModuleGraph V} {l : List String} {name : String}
    (hl : MClosed g l) (hdeps : ∀ d ∈ (g.defn name).imports, d ∈ l) :
    MClosed g (l ++ [name]) := by
  unfold MClosed at hl ⊢
  intro i m hm
  rcases lt_or_ge i l.length with hi | hi
  · rw [List.getElem?_append_left hi] at hm
    intro d hd
    obtain ⟨j, hj, hjd⟩ := hl i m hm d hd
    exact ⟨j, hj, by rw [List.getElem?_append_left (lt_trans hj hi)]; exact hjd⟩
  · have hil : i = l.length := by
      by_contra hne
      have : (l ++ [name]).length ≤ i := by
        simp only [List.length_append, List.length_singleton]
        omega
      rw [List.getElem?_len_le this] at hm
      exact Option.noConfusion hm
    subst hil
    have hmn : m = name := by
      have hval : (l ++ [name])[l.length]? = some name := by simp
      rw [hval] at hm
      exact (Option.some.inj hm).symm
    subst hmn
    intro d hd
    obtain ⟨j, hj⟩ := (mem_iff_exists_getElem? l d).mp (hdeps d hd)
    have hjlt : j < l.length := (List.getElem?_eq_some.mp hj).choose
    exact ⟨j, hjlt, by rw [List.getElem?_append_left hjlt]; exact hj⟩

theorem mclosed_transGen_before {V : Type} {g : ModuleGraph V} {l : List String}
    (hl : MClosed g l) {a b : String} (h : Relation.TransGen (ImportRel g) a b) :
    ∀ i : Nat, l[i]? = some a → ∃ j : Nat, j < i ∧ l[j]? = some b := by
  induction h with
  | single hstep =>
    intro i hi
    exact hl i a hi _ hstep
  | tail hab hbc ih =>
    intro i hi
    obtain ⟨j, hj, hjb⟩ := ih i hi
    obtain ⟨k, hk, hkc⟩ := hl j _ hjb _ hbc
    exact ⟨k, lt_trans hk hj, hkc⟩

theorem mclosed_no_cycle_mem {V : Type} {g : ModuleGraph V} {l : List String}
    (hl : MClosed g l) {m : String} (hc : InCycle g m) : m ∉ l := by
  intro hmem
  obtain ⟨i, hi⟩ := (mem_iff_exists_getElem? l m).mp hmem
  have H : ∀ i : Nat, ¬ (l[i]? = some m) := by
    intro i
    induction i using Nat.strong_induction_on with
    | _ i ih =>
      intro hi
      obtain ⟨j, hj, hjm⟩ := mclosed_transGen_before hl hc i hi
      exact ih j hj hjm
  exact H i hi

theorem mclosed_reachable_mem {V : Type} {g : ModuleGraph V} {l : List String}
    (hl : MClosed g l) {a b : String} (hr : Relation.ReflTransGen (ImportRel g) a b)
    (ha : a ∈ l) : b ∈ l := by
  induction hr with
  | refl => exact ha
  | tail hab hbc ih =>
    obtain ⟨i, hi⟩ := (mem_iff_exists_getElem? l _).mp ih
    obtain ⟨j, -, hj⟩ := hl i _ hi _ hbc
    exact (mem_iff_exists_getElem? l _).mpr ⟨j, hj⟩

theorem initModule_ok {V : Type} (g : ModuleGraph V) :
    ∀ (fuel : Nat) (name : String) (prev res res' : List String),
      initModule g fuel name prev res = .ok res' →
      (∃ u, res' = res ++ u) ∧ name ∈ res' ∧ (MClosed g res → MClosed g res') := by
  intro fuel
  induction fuel with
  | zero =>
    intro name prev res res' h
    simp [initModule] at h
  | succ f ih =>
    intro name prev res res' h
    simp only [initModule] at h
    split at h
    · rename_i hmem
      simp only [Except.ok.injEq] at h
      subst h
      exact ⟨⟨[], by simp⟩, hmem, fun hc => hc⟩
    · split at h
      · exact absurd h (by simp)
      · rename_i hscan
        split at h
        · exact absurd h (by simp)
        · rename_i r hloop
          simp only [Except.ok.injEq] at h
          subst h
          obtain ⟨⟨u, hu⟩, hns, hcl⟩ :=
            resolveList_ok (g := g)
              (fun n rs rs' hh => ih n (prev ++ [name]) rs rs' hh)
              (g.defn name).imports res r hloop
          refine ⟨⟨u ++ [name], by rw [hu, List.append_assoc]⟩, by simp, ?_⟩
          intro hc
          exact mclosed_append (hcl hc) (fun d hd => hns d hd)

theorem initModule_error_char {V : Type} (g : ModuleGraph V) :
    ∀ (fuel : Nat) (name : String) (prev res : List String) (e : DiError),
      List.Chain' (ImportRel g) (prev ++ [name]) →
      initModule g fuel name prev res = .error e →
      e = .outOfFuel ∨ ∃ p m0, e = .cyclicImport p ∧ 2 ≤ p.length ∧
        p.head? = some m0 ∧ p.getLast? = some m0 ∧
        List.Chain' (ImportRel g) p.reverse := by
  intro fuel
  induction fuel with
  | zero =>
    intro name prev res e _ h
    simp only [initModule, Except.error.injEq] at h
    subst h
    exact Or.inl rfl
  | succ f ih =>
    intro name prev res e hch h
    simp only [initModule] at h
    split at h
    · exact absurd h (by simp)
    · split at h
      · rename_i path hscan
        simp only [Except.error.injEq] at h
        subst h
        right
        obtain ⟨w1, w2, hl, hnotin, hres⟩ :=
          scanCycle_some_decomp name prev.reverse [name] path hscan
        have hpshape : path = ([name] ++ w1) ++ [name] := by
          rw [hres, List.append_assoc]
        refine ⟨path, name, rfl, ?_, ?_, ?_, ?_⟩
        · rw [hpshape]
          simp only [List.length_append, List.length_singleton, List.length_cons]
          omega
        · rw [hpshape]
          rfl
        · rw [hpshape]
          exact List.getLast?_concat _
        · have hprev : prev = (w2.reverse ++ [name]) ++ w1.reverse := by
            have := congrArg List.reverse hl
            simpa [List.reverse_append] using this
          have hch2 : List.Chain' (ImportRel g)
              (w2.reverse ++ ([name] ++ (w1.reverse ++ [name]))) := by
            have : prev ++ [name] =
                w2.reverse ++ ([name] ++ (w1.reverse ++ [name])) := by
              rw [hprev]
              simp [List.append_assoc]
            rw [this] at hch
            exact hch
          have hsuffix := (List.chain'_append.mp hch2).2.1
          have hprev2 : path.reverse = [name] ++ (w1.reverse ++ [name]) := by
            rw [hpshape]
            simp
          rw [hprev2]
          exact hsuffix
      · rename_i hscan
        split at h
        · rename_i e0 hloop
          simp only [Except.error.injEq] at h
          subst h
          obtain ⟨n, hn, res0, herr⟩ := resolveList_error (g.defn name).imports res e0 hloop
          have hch2 : List.Chain' (ImportRel g) ((prev ++ [name]) ++ [n]) := by
            rw [List.chain'_append]
            refine ⟨hch, List.chain'_singleton _, ?_⟩
            intro x hx y hy
            rw [List.getLast?_concat] at hx
            simp only [Option.mem_def, Option.some.injEq] at hx
            simp only [List.head?_cons, Option.mem_def, Option.some.injEq] at hy
            subst hx
            subst hy
            exact hn
          exact ih n (prev ++ [name]) res0 e0 hch2 herr
        · exact absurd h (by simp)

theorem initModule_no_fuel_error {V : Type} (g : ModuleGraph V)
    (hclosed : ∀ m ∈ g.univ, ∀ d ∈ (g.defn m).imports, d ∈ g.univ) :
    ∀ (fuel : Nat) (name : String) (prev res : List String),
      name ∈ g.univ → (∀ x ∈ prev, x ∈ g.univ) → prev.Nodup →
      g.univ.length < fuel + prev.length →
      initModule g fuel name prev res ≠ .error .outOfFuel := by
  intro fuel
  induction fuel with
  | zero =>
    intro name prev res _ hsub hnd hbound
    exfalso
    have hle : prev.length ≤ g.univ.length := (List.Nodup.subperm hnd hsub).length_le
    omega
  | succ f ih =>
    intro name prev res hname hsub hnd hbound h
    simp only [initModule] at h
    split at h
    · simp at h
    · split at h
      · simp at h
      · rename_i hscan
        have hnotin : name ∉ prev := by
          have := (scanCycle_none_iff name [name] prev.reverse).mp hscan
          simpa using this
        split at h
        · rename_i e0 hloop
          simp only [Except.error.injEq] at h
          subst h
          obtain ⟨n, hn, res0, herr⟩ := resolveList_error _ _ _ hloop
          refine ih n (prev ++ [name]) res0 (hclosed name hname n hn) ?_ ?_ ?_ herr
          · intro x hx
            rcases List.mem_append.mp hx with hx | hx
            · exact hsub x hx
            · simp only [List.mem_singleton] at hx
              subst hx
              exact hname
          · refine List.Nodup.append hnd (by simp) ?_
            intro a ha hb
            simp only [List.mem_singleton] at hb
            subst hb
            exact hnotin ha
          · simp only [List.length_append, List.length_singleton]
            omega
        · simp at h

/-- C5: for every module set whose import relation (over the program's
module universe, closed under imports) contains a cycle reachable from the
requested roots, `Context.initModules` fails with a cyclic-import error —
no context is returned — and the error carries the full cycle path: a
module-name list of length at least 2 that begins and ends with the same
module and whose reversal is a chain of direct imports. -/
theorem cyclic_import_detected {V : Type} (g : ModuleGraph V) (roots : List String)
    (hroots : ∀ r ∈ roots, r ∈ g.univ)
    (hclosed : ∀ m ∈ g.univ, ∀ d ∈ (g.defn m).imports, d ∈ g.univ)
    (hcycle : ∃ m, ReachableFrom g roots m ∧ InCycle g m) :
    ∃ p m0, initModules g roots = .error (.cyclicImport p) ∧ 2 ≤ p.length ∧
      p.head? = some m0 ∧ p.getLast? = some m0 ∧
      List.Chain' (ImportRel g) p.reverse := by
  obtain ⟨m, ⟨r, hr, hreach⟩, hcyc⟩ := hcycle
  cases hres : initModules g roots with
  | ok l =>
    exfalso
    obtain ⟨-, hroots_mem, hcl⟩ :=
      resolveList_ok (g := g)
        (fun n rs rs' hh => initModule_ok g (g.univ.length + 1) n [] rs rs' hh)
        roots [] l hres
    have hclosedl : MClosed g l := by
      refine hcl ?_
      intro i m0 hm0
      simp at hm0
    have hm : m ∈ l := mclosed_reachable_mem hclosedl hreach (hroots_mem r hr)
    exact mclosed_no_cycle_mem hclosedl hcyc hm
  | error e =>
    obtain ⟨r0, hr0, res0, herr⟩ := resolveList_error roots [] e hres
    have hchar := initModule_error_char g (g.univ.length + 1) r0 [] res0 e
      (by simp) herr
    rcases hchar with rfl | ⟨p, m0, rfl, h2, h3, h4, h5⟩
    · exfalso
      refine initModule_no_fuel_error g hclosed (g.univ.length + 1) r0 [] res0
        (hroots r0 hr0) (by simp) (by simp) (by simp) herr
    · exact ⟨p, m0, rfl, h2, h3, h4, h5⟩

/-- Two modules importing each other: the smallest cyclic import. -/
def gCyc : ModuleGraph Nat :=
  { univ := ["main.ModuleA", "main.ModuleB"],
    defn := fun n =>
      if n = "main.ModuleA" then ⟨["main.ModuleB"], [], []⟩
      else if n = "main.ModuleB" then ⟨["main.ModuleA"], [], []⟩
      else ⟨[], [], []⟩ }

/-- Witness for C5: with A importing B and B importing A, resolution fails
with a cyclic-import error whose path is A -> B -> A (both module names),
and the general theorem applies to it. -/
theorem cyclic_import_detected_witness :
    initModules gCyc ["main.ModuleA"] =
      .error (.cyclicImport ["main.ModuleA", "main.ModuleB", "main.ModuleA"]) ∧
    ∃ p m0, initModules gCyc ["main.ModuleA"] = .error (.cyclicImport p) ∧ 2 ≤ p.length ∧
      p.head? = some m0 ∧ p.getLast? = some m0 ∧
      List.Chain' (ImportRel gCyc) p.reverse := by
  refine ⟨rfl, cyclic_import_detected gCyc ["main.ModuleA"] (by decide) (by decide) ?_⟩
  refine ⟨"main.ModuleA", ⟨"main.ModuleA", by simp, Relation.ReflTransGen.refl⟩, ?_⟩
  have e1 : ImportRel gCyc "main.ModuleA" "main.ModuleB" := by
    show "main.ModuleB" ∈ (gCyc.defn "main.ModuleA").imports
    decide
  have e2 : ImportRel gCyc "main.ModuleB" "main.ModuleA" := by
    show "main.ModuleA" ∈ (gCyc.defn "main.ModuleB").imports
    decide
  exact Relation.TransGen.head e1 (Relation.TransGen.single e2)

end Di
